import Mathlib

/-!
# xorkv: a write-buffering key-value cache with an XOR state checksum

A shallow embedding of the Go package `xorkv` (`uint256.go`, `memory_store.go`,
`memcached_store.go`) followed by theorems about it.

Conventions of the embedding.

* A Go `[]byte` and a Go `string` are both a sequence of bytes, `Bytes`; the conversions
  `string(key)` and `[]byte(k)` are the identity.  A `nil` slice is the empty sequence.
* A Go `map[string]V` is an association list with unique keys (`AList`).  Go leaves the
  iteration order of a map unspecified; a `range` loop over a map is a left fold over the
  entries in the order the list holds them.
* A Go method with a pointer receiver that mutates the receiver returns the new receiver.
* A Go result `(T, error)` is a pair whose second component is `none` for a `nil` error.
* `sha256.Sum256` belongs to the Go standard library; it is a parameter `sha256` of every
  definition that hashes.
* The mutex calls are omitted: every operation is taken as one atomic step.
-/

namespace Xorkv

/-- A byte sequence (a Go `[]byte` or `string`); each element stands for one byte. -/
abbrev Bytes := List Nat

/-- A Go map with string keys. -/
abbrev GoMap (V : Type) := AList (fun _ : Bytes => V)

/-- The built-in `len(m)` of a Go map: the number of its entries. -/
def GoMap.len {V : Type} (m : GoMap V) : Nat := m.entries.length

/-! ## uint256.go -/

/-- The type `Uint256`, `[sha256.Size]byte`, an array of 32 bytes. -/
@[ext]
structure Uint256 where
  bytes : Fin 32 → Nat

instance : DecidableEq Uint256 := fun a b =>
  decidable_of_iff (a.bytes = b.bytes) ⟨fun h => Uint256.ext h, fun h => h ▸ rfl⟩

/-- The zero value `Uint256{}`. -/
def Uint256.zero : Uint256 := ⟨fun _ => 0⟩

/-- The method `Xor`: `for i := range u { u[i] ^= o[i] }`. -/
def Uint256.Xor (u o : Uint256) : Uint256 :=
  (List.finRange 32).foldl
    (fun acc i => ⟨Function.update acc.bytes i (acc.bytes i ^^^ o.bytes i)⟩) u

/-- The method `Equals`: false at the first index where the bytes differ, true otherwise. -/
def Uint256.Equals (u o : Uint256) : Bool :=
  (List.finRange 32).all (fun i => decide (u.bytes i = o.bytes i))

/-- The function `HashKV`: `sha256.Sum256(append([]byte(k), v...))`. -/
def HashKV (sha256 : Bytes → Uint256) (k : Bytes) (v : Bytes) : Uint256 :=
  sha256 (k ++ v)

/-! ## store.go (not among the sources) -/

/-- Modelled from the spec: the error values of the package, declared in `store.go`, which is
not among the sources.  `ErrKeyNotFound` is the NotFound failure of section 7; `Failure` stands
for any other error a backing store may surface (BackingStoreFailure). -/
inductive Error where
  | ErrKeyNotFound
  | Failure (code : Nat)
deriving DecidableEq, Repr

/-- Modelled from the spec: the `Store` and `Batch` interfaces, declared in `store.go`, which is
not among the sources.  Only the methods that `MemCachedStore` calls on its lower store are
listed (section 6): `Get`, `Seek`, `Batch` with the two methods of the batch it returns, and
`PutBatch`.  `σ` is the state of the lower store and `β` the type of its batches.  `Seek`
threads the state `α` of the callback through the calls it makes. -/
structure Store (σ β : Type) where
  Get : σ → Bytes → Bytes × Option Error
  Seek : {α : Type} → σ → Bytes → (α → Bytes → Bytes → α) → α → α
  Batch : σ → β
  BatchPut : β → Bytes → Bytes → β
  BatchDelete : β → Bytes → β
  PutBatch : σ → β → σ × Option Error

/-- The function `strings.HasPrefix(k, p)`. -/
def HasPrefix (k p : Bytes) : Bool := p.isPrefixOf k

/-! ## memory_store.go -/

/-- The struct `MemoryStore`: the maps `mem` and `del` (the mutex is omitted). -/
structure MemoryStore where
  mem : GoMap Bytes
  del : GoMap Bool

/-- The struct `MemoryBatch`, which embeds a `MemoryStore`. -/
structure MemoryBatch extends MemoryStore

/-- The function `NewMemoryStore`. -/
def NewMemoryStore : MemoryStore := { mem := ∅, del := ∅ }

/-- The method `MemoryStore.Get`. -/
def MemoryStore.Get (s : MemoryStore) (key : Bytes) : Bytes × Option Error :=
  match s.mem.lookup key with
  | some val => (val, none)
  | none => ([], some Error.ErrKeyNotFound)

/-- The method `MemoryStore.put`: `s.mem[key] = value; delete(s.del, key)`. -/
def MemoryStore.put (s : MemoryStore) (key : Bytes) (value : Bytes) : MemoryStore :=
  { mem := s.mem.insert key value, del := s.del.erase key }

/-- The method `MemoryStore.Put`; the copy of `value` is the value itself. -/
def MemoryStore.Put (s : MemoryStore) (key value : Bytes) : MemoryStore × Option Error :=
  (s.put key value, none)

/-- The method `MemoryStore.drop`: `s.del[key] = true; delete(s.mem, key)`. -/
def MemoryStore.drop (s : MemoryStore) (key : Bytes) : MemoryStore :=
  { mem := s.mem.erase key, del := s.del.insert key true }

/-- The method `MemoryStore.Delete`. -/
def MemoryStore.Delete (s : MemoryStore) (key : Bytes) : MemoryStore × Option Error :=
  (s.drop key, none)

/-- The method `MemoryBatch.Put`, which discards the error of `MemoryStore.Put`. -/
def MemoryBatch.Put (b : MemoryBatch) (k v : Bytes) : MemoryBatch :=
  ⟨(b.toMemoryStore.Put k v).1⟩

/-- The method `MemoryBatch.Delete`, which discards the error of `MemoryStore.Delete`. -/
def MemoryBatch.Delete (b : MemoryBatch) (k : Bytes) : MemoryBatch :=
  ⟨(b.toMemoryStore.Delete k).1⟩

/-- The method `MemoryStore.PutBatch`: drop every key of `b.del`, then put every pair of
`b.mem`. -/
def MemoryStore.PutBatch (s : MemoryStore) (b : MemoryBatch) : MemoryStore × Option Error :=
  let s1 := b.del.foldl (fun acc k _ => acc.drop k) s
  let s2 := b.mem.foldl (fun acc k v => acc.put k v) s1
  (s2, none)

/-- The method `MemoryStore.Seek`: call `f` on every pair of `mem` whose key has the prefix
`key`. -/
def MemoryStore.Seek {α : Type} (s : MemoryStore) (key : Bytes) (f : α → Bytes → Bytes → α)
    (a : α) : α :=
  s.mem.foldl (fun acc k v => if HasPrefix k key then f acc k v else acc) a

/-- The function `newMemoryBatch`. -/
def newMemoryBatch : MemoryBatch := ⟨NewMemoryStore⟩

/-- The method `MemoryStore.Batch`. -/
def MemoryStore.Batch (_s : MemoryStore) : MemoryBatch := newMemoryBatch

/-- The method `MemoryStore.Checksum`: the hashes of all pairs of `mem` xored into a zero
`Uint256`. -/
def MemoryStore.Checksum (sha256 : Bytes → Uint256) (s : MemoryStore) : Uint256 :=
  s.mem.foldl (fun hash k v => hash.Xor (HashKV sha256 k v)) Uint256.zero

/-- The `MemoryStore` as an implementation of the `Store` interface. -/
def MemoryStore.asStore : Store MemoryStore MemoryBatch where
  Get := MemoryStore.Get
  Seek := MemoryStore.Seek
  Batch := MemoryStore.Batch
  BatchPut := MemoryBatch.Put
  BatchDelete := MemoryBatch.Delete
  PutBatch := MemoryStore.PutBatch

/-! ## memcached_store.go -/

/-- The struct `MemCachedStore`: an embedded `MemoryStore`, the lower store `ps` (its state,
of type `σ`) and the running checksum `stateSum`. -/
structure MemCachedStore (σ : Type) extends MemoryStore where
  ps : σ
  stateSum : Uint256

/-- The function `NewMemCachedStore`; `stateSum` takes its zero value. -/
def NewMemCachedStore {σ : Type} (lower : σ) : MemCachedStore σ :=
  { toMemoryStore := NewMemoryStore, ps := lower, stateSum := Uint256.zero }

section
variable {σ β : Type} (sha256 : Bytes → Uint256) (I : Store σ β)

/-- The method `MemCachedStore.Delete`. -/
def MemCachedStore.Delete (s : MemCachedStore σ) (key : Bytes) :
    MemCachedStore σ × Option Error :=
  if s.del.lookup key = some true then (s, none)
  else
    let stateSum :=
      match s.mem.lookup key with
      | some val => s.stateSum.Xor (HashKV sha256 key val)
      | none =>
        match I.Get s.ps key with
        | (val, none) => s.stateSum.Xor (HashKV sha256 key val)
        | (_, some _) => s.stateSum
    let r := s.toMemoryStore.Delete key
    ({ toMemoryStore := r.1, ps := s.ps, stateSum := stateSum }, r.2)

/-- The method `MemCachedStore.Put`. -/
def MemCachedStore.Put (s : MemCachedStore σ) (key value : Bytes) :
    MemCachedStore σ × Option Error :=
  let stateSum :=
    match s.mem.lookup key with
    | some oldVal => s.stateSum.Xor (HashKV sha256 key oldVal)
    | none =>
      match I.Get s.ps key with
      | (oldVal, none) => s.stateSum.Xor (HashKV sha256 key oldVal)
      | (_, some _) => s.stateSum
  let stateSum := stateSum.Xor (HashKV sha256 key value)
  let r := s.toMemoryStore.Put key value
  ({ toMemoryStore := r.1, ps := s.ps, stateSum := stateSum }, r.2)

/-- The method `MemCachedStore.Get`. -/
def MemCachedStore.Get (s : MemCachedStore σ) (key : Bytes) : Bytes × Option Error :=
  match s.mem.lookup key with
  | some val => (val, none)
  | none =>
    match s.del.lookup key with
    | some _ => ([], some Error.ErrKeyNotFound)
    | none => I.Get s.ps key

/-- The method `MemCachedStore.Seek`: first `MemoryStore.Seek` on the overlay, then the lower
store's `Seek` with a callback that skips the keys of `mem` and of `del`. -/
def MemCachedStore.Seek {α : Type} (s : MemCachedStore σ) (key : Bytes)
    (f : α → Bytes → Bytes → α) (a : α) : α :=
  let a1 := s.toMemoryStore.Seek key f a
  I.Seek s.ps key
    (fun acc k v =>
      let present := (s.mem.lookup k).isSome
      let present := if !present then (s.del.lookup k).isSome else present
      if !present then f acc k v else acc)
    a1

/-- The batch and the counters `keys`, `dkeys` that `Persist` builds in its two loops: a
`Put` on the batch for every pair of `mem`, then a `Delete` on the batch for every key of
`del`. -/
def MemCachedStore.persistBatch (s : MemCachedStore σ) : β × Nat × Nat :=
  let batch := I.Batch s.ps
  let r1 := s.mem.foldl (fun (acc : β × Nat) k v => (I.BatchPut acc.1 k v, acc.2 + 1)) (batch, 0)
  let r2 := s.del.foldl (fun (acc : β × Nat) k _ => (I.BatchDelete acc.1 k, acc.2 + 1)) (r1.1, 0)
  (r2.1, r1.2, r2.2)

/-- The method `MemCachedStore.Persist`; it returns the new state, `keys` and the error. -/
def MemCachedStore.Persist (s : MemCachedStore σ) : MemCachedStore σ × Nat × Option Error :=
  let b := s.persistBatch I
  let keys := b.2.1
  let dkeys := b.2.2
  let r : σ × Option Error :=
    if keys != 0 || dkeys != 0 then I.PutBatch s.ps b.1 else (s.ps, none)
  match r.2 with
  | none => ({ mem := ∅, del := ∅, ps := r.1, stateSum := s.stateSum }, keys, none)
  | some err => ({ toMemoryStore := s.toMemoryStore, ps := r.1, stateSum := s.stateSum },
      keys, some err)

/-- The method `MemCachedStore.Checksum`. -/
def MemCachedStore.Checksum (s : MemCachedStore σ) : Uint256 := s.stateSum

/-- The method `MemCachedStore.ChangeChecksum`. -/
def MemCachedStore.ChangeChecksum (s : MemCachedStore σ) : Uint256 :=
  let calcChangeSum := s.mem.foldl (fun acc k v => acc.Xor (HashKV sha256 k v)) Uint256.zero
  s.del.foldl
    (fun acc k _ =>
      match I.Get s.ps k with
      | (_, none) => acc.Xor (sha256 k)
      | (_, some _) => acc)
    calcChangeSum

end

/-- A small stand-in for a hash: the first 32 bytes of the input, padded with zeros. -/
def toyHash (b : Bytes) : Uint256 := ⟨fun i => b.getD i.val 0⟩

/-! ## Sequences of calls -/

/-- A call on a `MemCachedStore`: `Put(key, value)`, `Delete(key)` or `Persist()`. -/
inductive Op where
  | Put (key value : Bytes)
  | Delete (key : Bytes)
  | Persist
deriving DecidableEq, Repr

/-- The state of a `MemCachedStore` over a `MemoryStore` after one call. -/
def step (sha256 : Bytes → Uint256) (s : MemCachedStore MemoryStore) :
    Op → MemCachedStore MemoryStore
  | Op.Put key value => (s.Put sha256 MemoryStore.asStore key value).1
  | Op.Delete key => (s.Delete sha256 MemoryStore.asStore key).1
  | Op.Persist => (s.Persist MemoryStore.asStore).1

/-- The state after a sequence of calls, made from left to right. -/
def run (sha256 : Bytes → Uint256) (ops : List Op) (s : MemCachedStore MemoryStore) :
    MemCachedStore MemoryStore :=
  ops.foldl (step sha256) s

/-- The representation invariant of a `MemoryStore`: no key is in both `mem` and `del`. -/
def MemoryStore.Disjoint (s : MemoryStore) : Prop :=
  ∀ key ∈ s.mem.keys, key ∉ s.del.keys

instance (s : MemoryStore) : Decidable s.Disjoint :=
  inferInstanceAs (Decidable (∀ key ∈ s.mem.keys, key ∉ s.del.keys))

/-- The XOR of `HashKV` over a list of pairs, taken from the zero `Uint256`. -/
def xorPairs (sha256 : Bytes → Uint256) (l : List (Sigma fun _ : Bytes => Bytes)) : Uint256 :=
  l.foldl (fun hash e => hash.Xor (HashKV sha256 e.1 e.2)) Uint256.zero

/-- The logical dataset as the specification defines it: the pairs visible through the
overlay, which are all pending writes and the pairs of the backing store whose key is neither
pending-written nor pending-deleted. -/
def MemCachedStore.logicalPairs (s : MemCachedStore MemoryStore) :
    List (Sigma fun _ : Bytes => Bytes) :=
  s.mem.entries ++
    s.ps.mem.entries.filter (fun e => !((s.mem.lookup e.1).isSome || (s.del.lookup e.1).isSome))

/-- The checksum of the logical dataset as the specification defines it: the XOR of `HashKV`
over the pairs of the logical dataset. -/
def MemCachedStore.logicalChecksum (sha256 : Bytes → Uint256) (s : MemCachedStore MemoryStore) :
    Uint256 :=
  xorPairs sha256 s.logicalPairs

/-- The value of a key in the logical dataset, if it has one: the pending write, else nothing
for a pending-deleted key, else the value the backing store holds. -/
def MemCachedStore.view (s : MemCachedStore MemoryStore) (key : Bytes) : Option Bytes :=
  match s.mem.lookup key with
  | some v => some v
  | none => if (s.del.lookup key).isSome then none else s.ps.mem.lookup key

/-- What a key contributes to a checksum: `HashKV` of the key and its value, or the zero
`Uint256` when the key has no value. -/
def contrib (sha256 : Bytes → Uint256) (key : Bytes) : Option Bytes → Uint256
  | some v => HashKV sha256 key v
  | none => Uint256.zero

/-- The second invariant of a `MemoryStore`: every value stored in `del` is `true`. -/
def MemoryStore.DelTrue (s : MemoryStore) : Prop :=
  ∀ key b, s.del.lookup key = some b → b = true

/-- The prior value `Put` and `Delete` find for a key: the pending write, else the value the
backing store holds. -/
def MemCachedStore.prior (s : MemCachedStore MemoryStore) (key : Bytes) : Option Bytes :=
  match s.mem.lookup key with
  | some v => some v
  | none => s.ps.mem.lookup key

/-- The checksum invariant of the specification together with the two invariants of the
embedded `MemoryStore`: the running checksum is the checksum of the logical dataset. -/
def MemCachedStore.ChecksumInv (sha256 : Bytes → Uint256) (s : MemCachedStore MemoryStore) :
    Prop :=
  s.toMemoryStore.Disjoint ∧ s.toMemoryStore.DelTrue ∧ s.stateSum = s.logicalChecksum sha256

/-- The condition under which `Put(key, _)` re-adds a deleted key that the backing store still
holds: `key` is not pending-written, is pending-deleted, and is in the backing store. -/
def MemCachedStore.readds (s : MemCachedStore MemoryStore) (key : Bytes) : Prop :=
  key ∉ s.mem ∧ key ∈ s.del ∧ key ∈ s.ps.mem

/-- A sequence of calls, made from the state `s`, in which no `Put` re-adds a deleted key that
the backing store still holds. -/
def noReadd (sha256 : Bytes → Uint256) : List Op → MemCachedStore MemoryStore → Prop
  | [], _ => True
  | Op.Put key value :: ops, s =>
      ¬ s.readds key ∧ noReadd sha256 ops (step sha256 s (Op.Put key value))
  | op :: ops, s => noReadd sha256 ops (step sha256 s op)

/-- The calls that `MemCachedStore.Seek` makes to its callback, in order, as (key, value)
pairs. -/
def MemCachedStore.seekCalls (s : MemCachedStore MemoryStore) (key : Bytes) :
    List (Bytes × Bytes) :=
  s.Seek MemoryStore.asStore key (fun acc k v => acc ++ [(k, v)]) []

/-- The keys of the lower store that the callback of `MemCachedStore.Seek` lets through: those
with the prefix that are neither in `mem` nor in `del`. -/
def MemCachedStore.passes (s : MemCachedStore MemoryStore) (pfx k : Bytes) : Bool :=
  HasPrefix k pfx && !((s.mem.lookup k).isSome || (s.del.lookup k).isSome)

/-- The pairs `MemCachedStore.Seek` visits: the pairs of `mem` with the prefix, then the pairs
of the lower store that pass. -/
def MemCachedStore.seekList (s : MemCachedStore MemoryStore) (pfx : Bytes) :
    List (Bytes × Bytes) :=
  (s.mem.entries.filter (fun e => HasPrefix e.1 pfx)).map (fun e => (e.1, e.2)) ++
    (s.ps.mem.entries.filter (fun e => s.passes pfx e.1)).map (fun e => (e.1, e.2))

/-! ## States and call sequences used as examples -/

/-- A lower store that keeps its pairs like a `MemoryStore` and whose `PutBatch` fails with
`Failure 7` without applying the batch. -/
def failingStore : Store MemoryStore MemoryBatch :=
  { MemoryStore.asStore with PutBatch := fun s _ => (s, some (Error.Failure 7)) }

/-- The overlay reached over an empty `MemoryStore` by `Put([1], [2])` and `Delete([3])`: it
holds the pending write `([1], [2])` and the pending delete `[3]`. -/
def pendingOverlay : MemCachedStore MemoryStore :=
  run toyHash [Op.Put [1] [2], Op.Delete [3]] (NewMemCachedStore NewMemoryStore)

/-- The overlay reached over an empty `MemoryStore` by `Put([1], [2])`, `Put([3], [4])`,
`Put([8], [9])`, `Persist()`, `Put([1], [5])`, `Delete([3])`: it holds the pending write
`([1], [5])` and the pending delete `[3]` over a `MemoryStore` that holds `([1], [2])`,
`([3], [4])` and `([8], [9])`. -/
def overlayExample : MemCachedStore MemoryStore :=
  run toyHash [Op.Put [1] [2], Op.Put [3] [4], Op.Put [8] [9], Op.Persist, Op.Put [1] [5],
    Op.Delete [3]] (NewMemCachedStore NewMemoryStore)

/-- The calls `Put(k, v)`, `Persist()`, `Delete(k)`, `Put(k, w)` with `k = [1]`, `v = [2]`,
`w = [3]`. -/
def readdOps : List Op := [Op.Put [1] [2], Op.Persist, Op.Delete [1], Op.Put [1] [3]]

/-- The calls `Put(k, v)`, `Persist()`, `Delete(k)`, `Put(k, v)`, `Persist()` with `k = [1]`,
`v = [2]`. -/
def readdPersistOps : List Op :=
  [Op.Put [1] [2], Op.Persist, Op.Delete [1], Op.Put [1] [2], Op.Persist]

/-- The calls `Put(k, v)`, `Persist()`, `Delete(k)` with `k = [1]`, `v = [2]`: afterwards the
overlay holds one pending delete and no pending write. -/
def deleteOps : List Op := [Op.Put [1] [2], Op.Persist, Op.Delete [1]]

/-! ## Definitions for the change checksum -/

/-- The XOR of `sha256(key)` over a list of keys, taken from the zero `Uint256`: the
tombstone hashes of the keys. -/
def xorKeys (sha256 : Bytes → Uint256) (l : List Bytes) : Uint256 :=
  l.foldl (fun hash k => hash.Xor (sha256 k)) Uint256.zero

/-- The pending-deleted keys for which the `Get` of the lower store succeeds. -/
def MemCachedStore.liveDeletes {σ β : Type} (I : Store σ β) (s : MemCachedStore σ) :
    List Bytes :=
  s.del.keys.filter (fun k => (I.Get s.ps k).2.isNone)

/-! ## Batches -/

/-- A call on a batch: `Put(key, value)` or `Delete(key)`. -/
inductive BatchOp where
  | Put (key value : Bytes)
  | Delete (key : Bytes)
deriving DecidableEq, Repr

/-- The key a call on a batch names. -/
def BatchOp.key : BatchOp → Bytes
  | BatchOp.Put key _ => key
  | BatchOp.Delete key => key

/-- The batch after one call. -/
def MemoryBatch.apply (b : MemoryBatch) : BatchOp → MemoryBatch
  | BatchOp.Put key value => b.Put key value
  | BatchOp.Delete key => b.Delete key

/-- The batch that `Batch()` returns, after a sequence of calls made from left to right. -/
def buildBatch (ops : List BatchOp) : MemoryBatch :=
  ops.foldl MemoryBatch.apply newMemoryBatch

/-- The last call of a sequence that names `key`, if there is one. -/
def lastOp : List BatchOp → Bytes → Option BatchOp
  | [], _ => none
  | op :: ops, key =>
      match lastOp ops key with
      | some o => some o
      | none => if op.key = key then some op else none

/-! ## Sequences of calls that include PutBatch -/

/-- A call on a `MemoryStore`: `Put(key, value)`, `Delete(key)` or `PutBatch(b)`. -/
inductive MemOp where
  | Put (key value : Bytes)
  | Delete (key : Bytes)
  | PutBatch (b : MemoryBatch)

/-- The state of a `MemoryStore` after one call. -/
def MemoryStore.step (s : MemoryStore) : MemOp → MemoryStore
  | MemOp.Put key value => (s.Put key value).1
  | MemOp.Delete key => (s.Delete key).1
  | MemOp.PutBatch b => (s.PutBatch b).1

/-- The state of a `MemoryStore` after a sequence of calls, made from left to right. -/
def MemoryStore.run (ops : List MemOp) (s : MemoryStore) : MemoryStore :=
  ops.foldl MemoryStore.step s

/-- The method `PutBatch` of a `MemCachedStore`: the method `MemoryStore.PutBatch` of the
embedded `MemoryStore`, which `MemCachedStore` does not redefine. -/
def MemCachedStore.PutBatch {σ : Type} (s : MemCachedStore σ) (b : MemoryBatch) :
    MemCachedStore σ × Option Error :=
  let r := s.toMemoryStore.PutBatch b
  ({ toMemoryStore := r.1, ps := s.ps, stateSum := s.stateSum }, r.2)

/-- A call on a `MemCachedStore` over any lower store: `Put(key, value)`, `Delete(key)`,
`PutBatch(b)` or `Persist()`. -/
inductive CachedOp where
  | Put (key value : Bytes)
  | Delete (key : Bytes)
  | PutBatch (b : MemoryBatch)
  | Persist

/-- The state of a `MemCachedStore` after one call. -/
def MemCachedStore.step {σ β : Type} (sha256 : Bytes → Uint256) (I : Store σ β)
    (s : MemCachedStore σ) : CachedOp → MemCachedStore σ
  | CachedOp.Put key value => (s.Put sha256 I key value).1
  | CachedOp.Delete key => (s.Delete sha256 I key).1
  | CachedOp.PutBatch b => (s.PutBatch b).1
  | CachedOp.Persist => (s.Persist I).1

/-- The state of a `MemCachedStore` after a sequence of calls, made from left to right. -/
def MemCachedStore.run {σ β : Type} (sha256 : Bytes → Uint256) (I : Store σ β)
    (ops : List CachedOp) (s : MemCachedStore σ) : MemCachedStore σ :=
  ops.foldl (MemCachedStore.step sha256 I) s

/-! ## Further states and call sequences used as examples -/

/-- The calls `Put([1], [2])`, `Put([3], [4])`, `Put([5], [6])`, `Delete([3])`,
`Put([5], [7])`: puts, a delete and an overwrite, with no `Persist`. -/
def putDeleteOps : List Op :=
  [Op.Put [1] [2], Op.Put [3] [4], Op.Put [5] [6], Op.Delete [3], Op.Put [5] [7]]

/-- The calls `Put([1], [2])`, `Delete([1])`: afterwards every key has been deleted. -/
def putThenDeleteOps : List Op := [Op.Put [1] [2], Op.Delete [1]]

/-- The calls `Put(k, v)`, `Persist()`, `Put(k, w)` with `k = [1]`, `v = [2]`, `w = [3]`:
afterwards the overlay holds a pending write for a key that the backing store holds. -/
def overwriteOps : List Op := [Op.Put [1] [2], Op.Persist, Op.Put [1] [3]]

/-- The overlay reached over an empty `MemoryStore` by `Put([8], [9])`, `Persist()`,
`Put([1], [2])`, `Delete([3])`: the backing store holds `([8], [9])`, and neither the pending
write `([1], [2])` nor the pending delete `[3]` names a key the backing store holds. -/
def freshKeysOverlay : MemCachedStore MemoryStore :=
  run toyHash [Op.Put [8] [9], Op.Persist, Op.Put [1] [2], Op.Delete [3]]
    (NewMemCachedStore NewMemoryStore)

/-- The `MemoryStore` that holds the single pair `("ab", "c")`, as bytes `([97, 98], [99])`. -/
def storeAbC : MemoryStore := (NewMemoryStore.Put [97, 98] [99]).1

/-- The `MemoryStore` that holds the single pair `("a", "bc")`, as bytes `([97], [98, 99])`. -/
def storeABc : MemoryStore := (NewMemoryStore.Put [97] [98, 99]).1

/-- The `MemoryStore` that holds the single pair `([1], [2])`. -/
def nonEmptyLower : MemoryStore := (NewMemoryStore.Put [1] [2]).1

/-! ## Algebra of `Uint256.Xor` -/

theorem Uint256.foldl_update_bytes (o : Uint256) (l : List (Fin 32)) (hl : l.Nodup)
    (u : Uint256) (i : Fin 32) :
    (l.foldl (fun acc j => (⟨Function.update acc.bytes j (acc.bytes j ^^^ o.bytes j)⟩ : Uint256))
      u).bytes i = if i ∈ l then u.bytes i ^^^ o.bytes i else u.bytes i := by
  induction l generalizing u with
  | nil => simp
  | cons j l ih =>
    rw [List.nodup_cons] at hl
    rw [List.foldl_cons, ih hl.2]
    by_cases hij : i = j
    · subst hij
      simp [hl.1]
    · simp [hij, Function.update_noteq hij]

theorem Uint256.Xor_bytes (u o : Uint256) (i : Fin 32) :
    (u.Xor o).bytes i = u.bytes i ^^^ o.bytes i := by
  unfold Uint256.Xor
  rw [Uint256.foldl_update_bytes o _ (List.nodup_finRange 32)]
  simp [List.mem_finRange]

theorem Uint256.xor_comm (a b : Uint256) : a.Xor b = b.Xor a := by
  ext i
  simp [Uint256.Xor_bytes, Nat.xor_comm]

theorem Uint256.xor_assoc (a b c : Uint256) : (a.Xor b).Xor c = a.Xor (b.Xor c) := by
  ext i
  simp [Uint256.Xor_bytes, Nat.xor_assoc]

theorem Uint256.zero_xor (a : Uint256) : Uint256.zero.Xor a = a := by
  ext i
  simp [Uint256.Xor_bytes, Uint256.zero]

theorem Uint256.xor_zero (a : Uint256) : a.Xor Uint256.zero = a := by
  ext i
  simp [Uint256.Xor_bytes, Uint256.zero]

theorem Uint256.xor_self (a : Uint256) : a.Xor a = Uint256.zero := by
  ext i
  simp [Uint256.Xor_bytes, Uint256.zero]

theorem Uint256.xor_xor_cancel (a b : Uint256) : (a.Xor b).Xor b = a := by
  rw [Uint256.xor_assoc, Uint256.xor_self, Uint256.xor_zero]

theorem Uint256.xor_eq_right_iff (a b : Uint256) : a.Xor b = b ↔ a = Uint256.zero := by
  constructor
  · intro h
    have h2 := congrArg (fun x => x.Xor b) h
    simp only [Uint256.xor_xor_cancel, Uint256.xor_self] at h2
    exact h2
  · intro h
    rw [h, Uint256.zero_xor]

/-! ## Folds over the entries of a map -/

theorem foldl_counter_snd {γ ε : Type} (g : γ → ε → γ) (l : List ε) (b : γ) (n : Nat) :
    (l.foldl (fun (acc : γ × Nat) e => (g acc.1 e, acc.2 + 1)) (b, n)).2 = n + l.length := by
  induction l generalizing b n with
  | nil => simp
  | cons e l ih =>
    rw [List.foldl_cons, ih, List.length_cons]
    omega

theorem foldl_counter_fst {γ ε : Type} (g : γ → ε → γ) (l : List ε) (b : γ) (n : Nat) :
    (l.foldl (fun (acc : γ × Nat) e => (g acc.1 e, acc.2 + 1)) (b, n)).1 = l.foldl g b := by
  induction l generalizing b n with
  | nil => simp
  | cons e l ih => rw [List.foldl_cons, ih, List.foldl_cons]

section
variable {σ β : Type} (sha256 : Bytes → Uint256) (I : Store σ β)

/-- The counter `keys` of `Persist` is the number of pending writes. -/
theorem MemCachedStore.persistBatch_keys (s : MemCachedStore σ) :
    (s.persistBatch I).2.1 = s.mem.len := by
  simp only [MemCachedStore.persistBatch, AList.foldl, GoMap.len]
  rw [foldl_counter_snd (fun b (e : Sigma fun _ : Bytes => Bytes) => I.BatchPut b e.1 e.2)]
  omega

/-- The counter `dkeys` of `Persist` is the number of pending deletes. -/
theorem MemCachedStore.persistBatch_dkeys (s : MemCachedStore σ) :
    (s.persistBatch I).2.2 = s.del.len := by
  simp only [MemCachedStore.persistBatch, AList.foldl, GoMap.len]
  rw [foldl_counter_snd (fun b (e : Sigma fun _ : Bytes => Bool) => I.BatchDelete b e.1)]
  omega

end

/-! ## The running checksum after a key is deleted and written again -/

theorem run_readdOps (sha256 : Bytes → Uint256) :
    run sha256 readdOps (NewMemCachedStore NewMemoryStore) =
      { mem := AList.singleton [1] [3], del := ∅,
        ps := { mem := AList.singleton [1] [2], del := ∅ },
        stateSum := (((Uint256.zero.Xor (HashKV sha256 [1] [2])).Xor (HashKV sha256 [1] [2])).Xor
          (HashKV sha256 [1] [2])).Xor (HashKV sha256 [1] [3]) } := by
  rfl

theorem run_readdPersistOps_dropLast (sha256 : Bytes → Uint256) :
    run sha256 readdPersistOps.dropLast (NewMemCachedStore NewMemoryStore) =
      { mem := AList.singleton [1] [2], del := ∅,
        ps := { mem := AList.singleton [1] [2], del := ∅ },
        stateSum := (((Uint256.zero.Xor (HashKV sha256 [1] [2])).Xor (HashKV sha256 [1] [2])).Xor
          (HashKV sha256 [1] [2])).Xor (HashKV sha256 [1] [2]) } := by
  rfl

theorem persist_singleton (c : Uint256) :
    MemCachedStore.Persist MemoryStore.asStore
      { mem := AList.singleton [1] [2], del := ∅,
        ps := { mem := AList.singleton [1] [2], del := ∅ }, stateSum := c } =
      ({ mem := ∅, del := ∅, ps := { mem := AList.singleton [1] [2], del := ∅ },
         stateSum := c }, 1, none) := by
  rfl

theorem run_readdPersistOps (sha256 : Bytes → Uint256) :
    run sha256 readdPersistOps (NewMemCachedStore NewMemoryStore) =
      { mem := ∅, del := ∅,
        ps := { mem := AList.singleton [1] [2], del := ∅ },
        stateSum := (((Uint256.zero.Xor (HashKV sha256 [1] [2])).Xor (HashKV sha256 [1] [2])).Xor
          (HashKV sha256 [1] [2])).Xor (HashKV sha256 [1] [2]) } := by
  have h : run sha256 readdPersistOps (NewMemCachedStore NewMemoryStore) =
      (MemCachedStore.Persist MemoryStore.asStore
        (run sha256 readdPersistOps.dropLast (NewMemCachedStore NewMemoryStore))).1 := rfl
  rw [h, run_readdPersistOps_dropLast, persist_singleton]

/-- C1, on a call sequence that re-adds a deleted key.  Over an empty `MemoryStore`, after
`Put(k, v)`, `Persist()`, `Delete(k)`, `Put(k, w)` the overlay's `Get` shows exactly the pair
`(k, w)`, so the XOR of `HashKV` over the logical dataset is `HashKV(k, w)`; but `Checksum()`
is `HashKV(k, v) xor HashKV(k, w)`: `Put` xors out the value of the lower store although the
key is pending-deleted.  The two agree only if `HashKV(k, v)` is all-zero, and they differ for
the stand-in hash `toyHash`.  (On sequences without such a `Put` the two agree:
`checksum_eq_logicalChecksum_of_noReadd`.) -/
theorem C1_checksum_after_readd (sha256 : Bytes → Uint256) :
    (∀ key, (run sha256 readdOps (NewMemCachedStore NewMemoryStore)).Get MemoryStore.asStore key
      = if key = [1] then ([3], none) else ([], some Error.ErrKeyNotFound)) ∧
    (run sha256 readdOps (NewMemCachedStore NewMemoryStore)).logicalChecksum sha256
      = HashKV sha256 [1] [3] ∧
    (run sha256 readdOps (NewMemCachedStore NewMemoryStore)).Checksum
      = (HashKV sha256 [1] [2]).Xor (HashKV sha256 [1] [3]) ∧
    ((run sha256 readdOps (NewMemCachedStore NewMemoryStore)).Checksum
      = (run sha256 readdOps (NewMemCachedStore NewMemoryStore)).logicalChecksum sha256
        ↔ HashKV sha256 [1] [2] = Uint256.zero) ∧
    (run toyHash readdOps (NewMemCachedStore NewMemoryStore)).Checksum
      ≠ (run toyHash readdOps (NewMemCachedStore NewMemoryStore)).logicalChecksum toyHash := by
  have hsum : (run sha256 readdOps (NewMemCachedStore NewMemoryStore)).Checksum
      = (HashKV sha256 [1] [2]).Xor (HashKV sha256 [1] [3]) := by
    rw [run_readdOps]
    simp only [MemCachedStore.Checksum, Uint256.zero_xor, Uint256.xor_self]
  have hlog : (run sha256 readdOps (NewMemCachedStore NewMemoryStore)).logicalChecksum sha256
      = HashKV sha256 [1] [3] := by
    rw [run_readdOps]
    have h : (MemCachedStore.logicalChecksum sha256
        { mem := AList.singleton [1] [3], del := ∅,
          ps := { mem := AList.singleton [1] [2], del := ∅ },
          stateSum := (((Uint256.zero.Xor (HashKV sha256 [1] [2])).Xor
            (HashKV sha256 [1] [2])).Xor (HashKV sha256 [1] [2])).Xor (HashKV sha256 [1] [3]) })
        = Uint256.zero.Xor (HashKV sha256 [1] [3]) := rfl
    rw [h, Uint256.zero_xor]
  refine ⟨?_, hlog, hsum, ?_, by decide⟩
  · intro key
    rw [run_readdOps]
    by_cases hk : key = [1]
    · subst hk
      rfl
    · simp [MemCachedStore.Get, MemoryStore.asStore, MemoryStore.Get, AList.lookup,
        AList.singleton, List.dlookup, hk, Ne.symm hk]
  · rw [hsum, hlog, Uint256.xor_eq_right_iff]

/-- C2, on a call sequence that re-adds a deleted key.  Over an empty `MemoryStore`, the calls
`Put(k, v)`, `Persist()`, `Delete(k)`, `Put(k, v)`, `Persist()` end with a successful
`Persist`, after which the overlay's `Checksum()` is all-zero while the backing store holds the
pair `(k, v)` and its `Checksum()` is `HashKV(k, v)`.  The two agree only if `HashKV(k, v)` is
all-zero, and they differ for the stand-in hash `toyHash`.  (From a state with the checksum
invariant the two agree after `Persist`: `MemCachedStore.checksum_Persist_of_checksumInv`.) -/
theorem C2_checksum_after_readd_persist (sha256 : Bytes → Uint256) :
    ((run sha256 readdPersistOps.dropLast (NewMemCachedStore NewMemoryStore)).Persist
      MemoryStore.asStore).2.2 = none ∧
    (run sha256 readdPersistOps (NewMemCachedStore NewMemoryStore)).Checksum = Uint256.zero ∧
    (run sha256 readdPersistOps (NewMemCachedStore NewMemoryStore)).ps.Get [1] = ([2], none) ∧
    (run sha256 readdPersistOps (NewMemCachedStore NewMemoryStore)).ps.Checksum sha256
      = HashKV sha256 [1] [2] ∧
    ((run sha256 readdPersistOps (NewMemCachedStore NewMemoryStore)).Checksum
      = (run sha256 readdPersistOps (NewMemCachedStore NewMemoryStore)).ps.Checksum sha256
        ↔ HashKV sha256 [1] [2] = Uint256.zero) ∧
    (run toyHash readdPersistOps (NewMemCachedStore NewMemoryStore)).Checksum
      ≠ (run toyHash readdPersistOps (NewMemCachedStore NewMemoryStore)).ps.Checksum toyHash := by
  have hsum : (run sha256 readdPersistOps (NewMemCachedStore NewMemoryStore)).Checksum
      = Uint256.zero := by
    rw [run_readdPersistOps]
    simp only [MemCachedStore.Checksum, Uint256.zero_xor, Uint256.xor_self]
  have hps : (run sha256 readdPersistOps (NewMemCachedStore NewMemoryStore)).ps.Checksum sha256
      = HashKV sha256 [1] [2] := by
    rw [run_readdPersistOps]
    have h : MemoryStore.Checksum sha256 { mem := AList.singleton [1] [2], del := ∅ }
        = Uint256.zero.Xor (HashKV sha256 [1] [2]) := rfl
    rw [h, Uint256.zero_xor]
  refine ⟨?_, hsum, ?_, hps, ?_, by decide⟩
  · rw [run_readdPersistOps_dropLast, persist_singleton]
  · rw [run_readdPersistOps]
    rfl
  rw [hsum, hps]
  constructor
  · intro h
    exact h.symm
  · intro h
    exact h.symm

/-- C3, on a new overlay over a store that is not empty.  Over the `MemoryStore` `nonEmptyLower`,
which holds the single pair `([1], [2])`, a `MemCachedStore` newly created by
`NewMemCachedStore` shows that pair through `Get`, and the XOR of `HashKV` over the backing
store's pairs, its `Checksum()`, is `HashKV([1], [2])`; but the overlay's `Checksum()` is
all-zero, since `NewMemCachedStore` leaves `stateSum` at its zero value.  The two agree only if
`HashKV([1], [2])` is all-zero, and they differ for the stand-in hash `toyHash`.  `Delete([1])`
on that overlay then xors the value out of a checksum that never held it: `Get([1])` fails and
`Checksum()` is `HashKV([1], [2])`.  Over the empty store the two checksums agree. -/
theorem C3_checksum_over_nonempty_store (sha256 : Bytes → Uint256) :
    (NewMemCachedStore nonEmptyLower).Get MemoryStore.asStore [1] = ([2], none) ∧
    nonEmptyLower.Checksum sha256 = HashKV sha256 [1] [2] ∧
    (NewMemCachedStore nonEmptyLower).logicalChecksum sha256 = HashKV sha256 [1] [2] ∧
    (NewMemCachedStore nonEmptyLower).Checksum = Uint256.zero ∧
    ((NewMemCachedStore nonEmptyLower).Checksum = nonEmptyLower.Checksum sha256
      ↔ HashKV sha256 [1] [2] = Uint256.zero) ∧
    (NewMemCachedStore nonEmptyLower).Checksum ≠ nonEmptyLower.Checksum toyHash ∧
    (((NewMemCachedStore nonEmptyLower).Delete sha256 MemoryStore.asStore [1]).1.Get
        MemoryStore.asStore [1] = ([], some Error.ErrKeyNotFound) ∧
      ((NewMemCachedStore nonEmptyLower).Delete sha256 MemoryStore.asStore [1]).1.Checksum
        = HashKV sha256 [1] [2]) ∧
    (NewMemCachedStore NewMemoryStore).Checksum = NewMemoryStore.Checksum sha256 := by
  have hps : nonEmptyLower.Checksum sha256 = HashKV sha256 [1] [2] := by
    have h : nonEmptyLower.Checksum sha256 = Uint256.zero.Xor (HashKV sha256 [1] [2]) := rfl
    rw [h, Uint256.zero_xor]
  have hlog : (NewMemCachedStore nonEmptyLower).logicalChecksum sha256
      = HashKV sha256 [1] [2] := by
    have h : (NewMemCachedStore nonEmptyLower).logicalChecksum sha256
        = Uint256.zero.Xor (HashKV sha256 [1] [2]) := rfl
    rw [h, Uint256.zero_xor]
  have hsum : (NewMemCachedStore nonEmptyLower).Checksum = Uint256.zero := rfl
  have hdel : ((NewMemCachedStore nonEmptyLower).Delete sha256 MemoryStore.asStore [1]).1.Checksum
      = HashKV sha256 [1] [2] := by
    have h : ((NewMemCachedStore nonEmptyLower).Delete sha256 MemoryStore.asStore [1]).1.Checksum
        = Uint256.zero.Xor (HashKV sha256 [1] [2]) := rfl
    rw [h, Uint256.zero_xor]
  refine ⟨rfl, hps, hlog, hsum, ?_, by decide, ⟨rfl, hdel⟩, rfl⟩
  rw [hsum, hps]
  constructor
  · intro h
    exact h.symm
  · intro h
    exact h.symm

/-! ## The representation invariant: `mem` and `del` share no key -/

theorem MemoryStore.disjoint_iff (m : MemoryStore) :
    m.Disjoint ↔ ∀ key, key ∈ m.mem → key ∉ m.del :=
  Iff.rfl

theorem MemoryStore.disjoint_new : NewMemoryStore.Disjoint := by
  intro key h
  simp [NewMemoryStore] at h

theorem MemoryStore.disjoint_put (m : MemoryStore) (h : m.Disjoint) (k v : Bytes) :
    (m.put k v).Disjoint := by
  rw [MemoryStore.disjoint_iff] at h ⊢
  intro key hk hd
  simp only [MemoryStore.put, AList.mem_insert, AList.mem_erase] at hk hd
  rcases hk with hk | hk
  · exact hd.1 hk
  · exact h key hk hd.2

theorem MemoryStore.disjoint_drop (m : MemoryStore) (h : m.Disjoint) (k : Bytes) :
    (m.drop k).Disjoint := by
  rw [MemoryStore.disjoint_iff] at h ⊢
  intro key hk hd
  simp only [MemoryStore.drop, AList.mem_insert, AList.mem_erase] at hk hd
  rcases hd with hd | hd
  · exact hk.1 hd
  · exact h key hk.2 hd

section
variable {σ β : Type} (sha256 : Bytes → Uint256) (I : Store σ β)

theorem MemCachedStore.disjoint_Put (s : MemCachedStore σ) (h : s.toMemoryStore.Disjoint)
    (k v : Bytes) : (s.Put sha256 I k v).1.toMemoryStore.Disjoint :=
  MemoryStore.disjoint_put s.toMemoryStore h k v

theorem MemCachedStore.disjoint_Delete (s : MemCachedStore σ) (h : s.toMemoryStore.Disjoint)
    (k : Bytes) : (s.Delete sha256 I k).1.toMemoryStore.Disjoint := by
  unfold MemCachedStore.Delete
  split
  · exact h
  · exact MemoryStore.disjoint_drop s.toMemoryStore h k

theorem MemCachedStore.disjoint_Persist (s : MemCachedStore σ) (h : s.toMemoryStore.Disjoint) :
    (s.Persist I).1.toMemoryStore.Disjoint := by
  simp only [MemCachedStore.Persist]
  split
  · exact MemoryStore.disjoint_new
  · exact h

end

/-- Every state reached from a state with the invariant by `Put`, `Delete` and `Persist` has
the invariant. -/
theorem disjoint_run (sha256 : Bytes → Uint256) (ops : List Op) (s : MemCachedStore MemoryStore)
    (h : s.toMemoryStore.Disjoint) : (run sha256 ops s).toMemoryStore.Disjoint := by
  induction ops generalizing s with
  | nil => exact h
  | cons op ops ih =>
    apply ih
    cases op with
    | Put key value => exact MemCachedStore.disjoint_Put sha256 MemoryStore.asStore s h key value
    | Delete key => exact MemCachedStore.disjoint_Delete sha256 MemoryStore.asStore s h key
    | Persist => exact MemCachedStore.disjoint_Persist MemoryStore.asStore s h

/-- Every state reached from `NewMemCachedStore` over any `MemoryStore` has the invariant. -/
theorem disjoint_run_new (sha256 : Bytes → Uint256) (ops : List Op) (lower : MemoryStore) :
    (run sha256 ops (NewMemCachedStore lower)).toMemoryStore.Disjoint :=
  disjoint_run sha256 ops _ MemoryStore.disjoint_new

/-! ## Persist over a MemoryStore -/

theorem foldl_put_mem_lookup (l : List (Sigma fun _ : Bytes => Bytes)) (hl : l.NodupKeys)
    (m : MemoryStore) (k : Bytes) :
    (l.foldl (fun acc e => acc.put e.1 e.2) m).mem.lookup k =
      match l.dlookup k with
      | some v => some v
      | none => m.mem.lookup k := by
  induction l generalizing m with
  | nil => rfl
  | cons e l ih =>
    obtain ⟨a, b⟩ := e
    rw [List.nodupKeys_cons] at hl
    rw [List.foldl_cons, ih hl.2]
    by_cases hk : k = a
    · subst hk
      rw [List.dlookup_eq_none.2 hl.1, List.dlookup_cons_eq]
      simp [MemoryStore.put, AList.lookup_insert]
    · rw [List.dlookup_cons_ne l ⟨a, b⟩ hk]
      simp [MemoryStore.put, AList.lookup_insert_ne hk]

theorem foldl_put_del_lookup (l : List (Sigma fun _ : Bytes => Bytes)) (m : MemoryStore)
    (k : Bytes) :
    (l.foldl (fun acc e => acc.put e.1 e.2) m).del.lookup k =
      if k ∈ l.keys then none else m.del.lookup k := by
  induction l generalizing m with
  | nil => simp
  | cons e l ih =>
    obtain ⟨a, b⟩ := e
    rw [List.foldl_cons, ih]
    by_cases hk : k = a
    · subst hk
      simp [MemoryStore.put, AList.lookup_erase]
    · simp [MemoryStore.put, AList.lookup_erase_ne hk, hk]

theorem foldl_drop_mem_lookup (l : List (Sigma fun _ : Bytes => Bool)) (m : MemoryStore)
    (k : Bytes) :
    (l.foldl (fun acc e => acc.drop e.1) m).mem.lookup k =
      if k ∈ l.keys then none else m.mem.lookup k := by
  induction l generalizing m with
  | nil => simp
  | cons e l ih =>
    obtain ⟨a, b⟩ := e
    rw [List.foldl_cons, ih]
    by_cases hk : k = a
    · subst hk
      simp [MemoryStore.drop, AList.lookup_erase]
    · simp [MemoryStore.drop, AList.lookup_erase_ne hk, hk]

theorem foldl_drop_del_lookup (l : List (Sigma fun _ : Bytes => Bool)) (m : MemoryStore)
    (k : Bytes) :
    (l.foldl (fun acc e => acc.drop e.1) m).del.lookup k =
      if k ∈ l.keys then some true else m.del.lookup k := by
  induction l generalizing m with
  | nil => simp
  | cons e l ih =>
    obtain ⟨a, b⟩ := e
    rw [List.foldl_cons, ih]
    by_cases hk : k = a
    · subst hk
      by_cases hl : k ∈ l.keys
      · simp [hl]
      · simp [hl, MemoryStore.drop, AList.lookup_insert]
    · simp [MemoryStore.drop, AList.lookup_insert_ne hk, hk]

theorem foldl_batchPut (l : List (Sigma fun _ : Bytes => Bytes)) (b : MemoryBatch) :
    (l.foldl (fun acc e => MemoryBatch.Put acc e.1 e.2) b).toMemoryStore =
      l.foldl (fun acc e => acc.put e.1 e.2) b.toMemoryStore := by
  induction l generalizing b with
  | nil => rfl
  | cons e l ih =>
    rw [List.foldl_cons, ih]
    rfl

theorem foldl_batchDelete (l : List (Sigma fun _ : Bytes => Bool)) (b : MemoryBatch) :
    (l.foldl (fun acc e => MemoryBatch.Delete acc e.1) b).toMemoryStore =
      l.foldl (fun acc e => acc.drop e.1) b.toMemoryStore := by
  induction l generalizing b with
  | nil => rfl
  | cons e l ih =>
    rw [List.foldl_cons, ih]
    rfl

/-- The batch `Persist` builds for a `MemoryStore`: the puts of `mem`, then the drops of
`del`, on an empty `MemoryStore`. -/
theorem MemCachedStore.persistBatch_memory (s : MemCachedStore MemoryStore) :
    (s.persistBatch MemoryStore.asStore).1.toMemoryStore =
      s.del.entries.foldl (fun acc e => acc.drop e.1)
        (s.mem.entries.foldl (fun acc e => acc.put e.1 e.2) NewMemoryStore) := by
  simp only [MemCachedStore.persistBatch, AList.foldl, MemoryStore.asStore]
  rw [foldl_counter_fst (fun b (e : Sigma fun _ : Bytes => Bool) => MemoryBatch.Delete b e.1),
    foldl_counter_fst (fun b (e : Sigma fun _ : Bytes => Bytes) => MemoryBatch.Put b e.1 e.2),
    foldl_batchDelete, foldl_batchPut]
  rfl

/-- What the lower `MemoryStore` holds at `k` after `PutBatch` with the batch `Persist`
builds, when `mem` and `del` share no key. -/
theorem MemCachedStore.putBatch_lookup (s : MemCachedStore MemoryStore)
    (hdisj : s.toMemoryStore.Disjoint) (k : Bytes) :
    (s.ps.PutBatch (s.persistBatch MemoryStore.asStore).1).1.mem.lookup k =
      match s.mem.lookup k with
      | some v => some v
      | none => if k ∈ s.del then none else s.ps.mem.lookup k := by
  have hb := MemCachedStore.persistBatch_memory s
  have hbm : ∀ key, (s.persistBatch MemoryStore.asStore).1.mem.lookup key =
      if key ∈ s.del.entries.keys then none else s.mem.lookup key := by
    intro key
    have h1 := congrArg (fun m => m.mem.lookup key) hb
    simp only [] at h1
    rw [h1, foldl_drop_mem_lookup, foldl_put_mem_lookup _ s.mem.nodupKeys]
    have hm : s.mem.entries.dlookup key = s.mem.lookup key := rfl
    rw [hm]
    cases s.mem.lookup key <;> simp [NewMemoryStore]
  have hbd : ∀ key, (s.persistBatch MemoryStore.asStore).1.del.lookup key =
      if key ∈ s.del.entries.keys then some true else none := by
    intro key
    have h1 := congrArg (fun m => m.del.lookup key) hb
    simp only [] at h1
    rw [h1, foldl_drop_del_lookup, foldl_put_del_lookup]
    simp [NewMemoryStore]
  simp only [MemoryStore.PutBatch, AList.foldl]
  rw [foldl_put_mem_lookup _ (s.persistBatch MemoryStore.asStore).1.mem.nodupKeys,
    foldl_drop_mem_lookup]
  have hm : (s.persistBatch MemoryStore.asStore).1.mem.entries.dlookup k =
      (s.persistBatch MemoryStore.asStore).1.mem.lookup k := rfl
  have hdk : k ∈ (s.persistBatch MemoryStore.asStore).1.del.entries.keys ↔ k ∈ s.del := by
    have h2 : k ∈ (s.persistBatch MemoryStore.asStore).1.del ↔ k ∈ s.del := by
      rw [← AList.lookup_isSome, hbd k]
      by_cases hk : k ∈ s.del.entries.keys
      · simp [hk, AList.mem_keys, AList.keys]
      · simp [hk, AList.mem_keys, AList.keys]
    exact h2
  rw [hm, hbm k]
  by_cases hk : k ∈ s.del
  · have hk2 : k ∈ s.del.entries.keys := hk
    have hmem : s.mem.lookup k = none := by
      rw [AList.lookup_eq_none]
      intro hmem
      exact hdisj k hmem hk
    simp [hk2, hmem, hdk, hk]
  · have hk2 : k ∉ s.del.entries.keys := hk
    cases hml : s.mem.lookup k <;> simp [hk2, hdk, hk]

theorem GoMap.lookup_of_len_zero {V : Type} (m : GoMap V) (h : m.len = 0) (k : Bytes) :
    m.lookup k = none := by
  have he : m.entries = [] := List.length_eq_zero.1 h
  simp [AList.lookup, he]

/-- Over a `MemoryStore`, `Persist` succeeds, empties `mem` and `del` and keeps `stateSum`. -/
theorem MemCachedStore.Persist_memory (s : MemCachedStore MemoryStore) :
    (s.Persist MemoryStore.asStore).2.2 = none ∧
    (s.Persist MemoryStore.asStore).1.mem = ∅ ∧
    (s.Persist MemoryStore.asStore).1.del = ∅ ∧
    (s.Persist MemoryStore.asStore).1.stateSum = s.stateSum := by
  have hput : MemoryStore.asStore.PutBatch = MemoryStore.PutBatch := rfl
  have herr : ∀ b, (MemoryStore.PutBatch s.ps b).2 = none := fun _ => rfl
  by_cases hc : ((s.persistBatch MemoryStore.asStore).2.1 != 0 ||
      (s.persistBatch MemoryStore.asStore).2.2 != 0) = true
  · refine ⟨?_, ?_, ?_, ?_⟩ <;> simp only [MemCachedStore.Persist, hc, if_true, hput, herr]
  · refine ⟨?_, ?_, ?_, ?_⟩ <;> simp only [MemCachedStore.Persist, hc] <;> rfl

/-- Over a `MemoryStore`, when `mem` and `del` share no key, the backing store holds after
`Persist` at every key the value the logical dataset had there before. -/
theorem MemCachedStore.Persist_ps_lookup (s : MemCachedStore MemoryStore)
    (hdisj : s.toMemoryStore.Disjoint) (k : Bytes) :
    (s.Persist MemoryStore.asStore).1.ps.mem.lookup k = s.view k := by
  have hput : MemoryStore.asStore.PutBatch = MemoryStore.PutBatch := rfl
  have herr : ∀ b, (MemoryStore.PutBatch s.ps b).2 = none := fun _ => rfl
  by_cases hc : ((s.persistBatch MemoryStore.asStore).2.1 != 0 ||
      (s.persistBatch MemoryStore.asStore).2.2 != 0) = true
  · have h1 : (s.Persist MemoryStore.asStore).1.ps =
        (s.ps.PutBatch (s.persistBatch MemoryStore.asStore).1).1 := by
      simp only [MemCachedStore.Persist, hc, if_true, hput, herr]
    rw [h1, MemCachedStore.putBatch_lookup s hdisj k]
    unfold MemCachedStore.view
    cases hml : s.mem.lookup k with
    | some v => rfl
    | none =>
      by_cases hk : k ∈ s.del
      · have hk2 := hk
        rw [← AList.lookup_isSome] at hk2
        simp [hk, hk2]
      · have hk2 := hk
        rw [← AList.lookup_eq_none] at hk2
        simp [hk, hk2]
  · have h1 : (s.Persist MemoryStore.asStore).1.ps = s.ps := by
      simp only [MemCachedStore.Persist, hc]
      rfl
    rw [h1]
    rw [MemCachedStore.persistBatch_keys, MemCachedStore.persistBatch_dkeys] at hc
    have hm0 : s.mem.len = 0 := by
      by_contra h
      simp [h] at hc
    have hd0 : s.del.len = 0 := by
      by_contra h
      simp [h] at hc
    simp [MemCachedStore.view, GoMap.lookup_of_len_zero s.mem hm0,
      GoMap.lookup_of_len_zero s.del hd0]

/-- The overlay's `Get` over a `MemoryStore` returns the value of the key in the logical
dataset, or fails with `ErrKeyNotFound` when the key has none. -/
theorem MemCachedStore.Get_eq_view (s : MemCachedStore MemoryStore) (k : Bytes) :
    s.Get MemoryStore.asStore k =
      match s.view k with
      | some v => (v, none)
      | none => ([], some Error.ErrKeyNotFound) := by
  have hget : MemoryStore.asStore.Get = MemoryStore.Get := rfl
  simp only [MemCachedStore.Get, MemCachedStore.view, hget, MemoryStore.Get]
  cases s.mem.lookup k <;> cases s.del.lookup k <;> cases s.ps.mem.lookup k <;> rfl

/-- C4.  For a `MemCachedStore` over a `MemoryStore` whose `mem` and `del` share no key (the
representation invariant `MemoryStore.Disjoint`, which `disjoint_run_new` shows for every
state reached from `NewMemCachedStore`), `Persist` succeeds, leaves `mem` and `del` empty, and
for every key `k` the backing store's `Get(k)` afterwards is the overlay's `Get(k)` from
before; so the overlay's `Get(k)` is the same before and after. -/
theorem C4_persist_folds_overlay (s : MemCachedStore MemoryStore)
    (hdisj : s.toMemoryStore.Disjoint) (k : Bytes) :
    (s.Persist MemoryStore.asStore).2.2 = none ∧
    (s.Persist MemoryStore.asStore).1.mem = ∅ ∧
    (s.Persist MemoryStore.asStore).1.del = ∅ ∧
    (s.Persist MemoryStore.asStore).1.ps.Get k = s.Get MemoryStore.asStore k ∧
    (s.Persist MemoryStore.asStore).1.Get MemoryStore.asStore k
      = s.Get MemoryStore.asStore k := by
  have hres := MemCachedStore.Persist_memory s
  have hlook := MemCachedStore.Persist_ps_lookup s hdisj k
  have hps : (s.Persist MemoryStore.asStore).1.ps.Get k = s.Get MemoryStore.asStore k := by
    rw [MemCachedStore.Get_eq_view, ← hlook]
    rfl
  refine ⟨hres.1, hres.2.1, hres.2.2.1, hps, ?_⟩
  rw [← hps]
  simp only [MemCachedStore.Get, hres.2.1, hres.2.2.1, AList.lookup_empty]
  rfl

/-- C4, witness: `overlayExample`, with the pending write `([1], [5])` and the pending delete
`[3]`, at the pending-deleted key `[3]`. -/
theorem C4_persist_folds_overlay_witness :
    overlayExample.toMemoryStore.Disjoint ∧
    overlayExample.Get MemoryStore.asStore [3] = ([], some Error.ErrKeyNotFound) ∧
    ((overlayExample.Persist MemoryStore.asStore).2.2 = none ∧
      (overlayExample.Persist MemoryStore.asStore).1.mem = ∅ ∧
      (overlayExample.Persist MemoryStore.asStore).1.del = ∅ ∧
      (overlayExample.Persist MemoryStore.asStore).1.ps.Get [3]
        = overlayExample.Get MemoryStore.asStore [3] ∧
      (overlayExample.Persist MemoryStore.asStore).1.Get MemoryStore.asStore [3]
        = overlayExample.Get MemoryStore.asStore [3]) :=
  ⟨by decide, by decide, C4_persist_folds_overlay overlayExample (by decide) [3]⟩

/-! ## Persist: failure and count -/

/-- C5.  When the overlay is not empty and the `PutBatch` of the lower store returns an error
for the batch `Persist` hands it, `Persist` returns that error and the overlay's pending
writes, pending deletes and running checksum are those from before the call. -/
theorem C5_persist_failure_keeps_overlay {σ β : Type} (I : Store σ β) (s : MemCachedStore σ)
    (err : Error) (hne : 0 < s.mem.len ∨ 0 < s.del.len)
    (hfail : (I.PutBatch s.ps (s.persistBatch I).1).2 = some err) :
    (s.Persist I).2.2 = some err ∧ (s.Persist I).1.mem = s.mem ∧ (s.Persist I).1.del = s.del ∧
      (s.Persist I).1.Checksum = s.Checksum := by
  have hcnt : ((s.persistBatch I).2.1 != 0 || (s.persistBatch I).2.2 != 0) = true := by
    rw [MemCachedStore.persistBatch_keys, MemCachedStore.persistBatch_dkeys]
    rcases hne with h | h
    · have h3 : s.mem.len ≠ 0 := by omega
      simp [h3]
    · have h3 : s.del.len ≠ 0 := by omega
      simp [h3]
  refine ⟨?_, ?_, ?_, ?_⟩ <;>
    simp only [MemCachedStore.Persist, hcnt, if_true, hfail, MemCachedStore.Checksum]

/-- C5, witness: the overlay `pendingOverlay` over the failing lower store. -/
theorem C5_persist_failure_witness :
    (0 < pendingOverlay.mem.len ∨ 0 < pendingOverlay.del.len) ∧
    (failingStore.PutBatch pendingOverlay.ps (pendingOverlay.persistBatch failingStore).1).2
      = some (Error.Failure 7) ∧
    ((pendingOverlay.Persist failingStore).2.2 = some (Error.Failure 7) ∧
      (pendingOverlay.Persist failingStore).1.mem = pendingOverlay.mem ∧
      (pendingOverlay.Persist failingStore).1.del = pendingOverlay.del ∧
      (pendingOverlay.Persist failingStore).1.Checksum = pendingOverlay.Checksum) :=
  ⟨by decide, rfl,
    C5_persist_failure_keeps_overlay failingStore pendingOverlay (Error.Failure 7) (by decide) rfl⟩

/-- C6, counterexample.  After `Put(k, v)`, `Persist()`, `Delete(k)` the overlay holds no
pending write and one pending delete; `Persist` succeeds, removes `k` from the backing store
and returns the count 0, not 1. -/
theorem C6_counterexample :
    (run toyHash deleteOps (NewMemCachedStore NewMemoryStore)).mem.len = 0 ∧
    (run toyHash deleteOps (NewMemCachedStore NewMemoryStore)).del.len = 1 ∧
    ((run toyHash deleteOps (NewMemCachedStore NewMemoryStore)).Persist
      MemoryStore.asStore).1.ps.Get [1] = ([], some Error.ErrKeyNotFound) ∧
    ((run toyHash deleteOps (NewMemCachedStore NewMemoryStore)).Persist
      MemoryStore.asStore).2 = (0, none) ∧
    ((run toyHash deleteOps (NewMemCachedStore NewMemoryStore)).Persist
      MemoryStore.asStore).2.1 ≠
      (run toyHash deleteOps (NewMemCachedStore NewMemoryStore)).mem.len +
      (run toyHash deleteOps (NewMemCachedStore NewMemoryStore)).del.len := by
  decide

/-- C6, amended.  The count returned by `Persist` is the number of pending writes at the time
of the call; the pending deletes are put into the batch but not counted. -/
theorem C6_persist_count_is_writes {σ β : Type} (I : Store σ β) (s : MemCachedStore σ) :
    (s.Persist I).2.1 = s.mem.len := by
  rw [← MemCachedStore.persistBatch_keys I s]
  simp only [MemCachedStore.Persist]
  split <;> rfl

/-! ## Get -/

/-- C7.  `Get(key)` returns the pending value when `key` is in the pending writes; otherwise,
when `key` is in the pending deletes, it fails with `ErrKeyNotFound` whatever the lower store
`J` and its state `p` are; otherwise it returns the result of the lower store's `Get(key)`. -/
theorem C7_get_precedence {σ β : Type} (I : Store σ β) (s : MemCachedStore σ) (key : Bytes) :
    (∀ val, s.mem.lookup key = some val → s.Get I key = (val, none)) ∧
    (key ∉ s.mem → key ∈ s.del → ∀ (J : Store σ β) (p : σ),
      MemCachedStore.Get J { toMemoryStore := s.toMemoryStore, ps := p, stateSum := s.stateSum }
        key = ([], some Error.ErrKeyNotFound)) ∧
    (key ∉ s.mem → key ∉ s.del → s.Get I key = I.Get s.ps key) := by
  refine ⟨?_, ?_, ?_⟩
  · intro val h
    simp only [MemCachedStore.Get, h]
  · intro hm hd J p
    rw [← AList.lookup_eq_none] at hm
    rw [← AList.lookup_isSome, Option.isSome_iff_exists] at hd
    obtain ⟨b, hb⟩ := hd
    simp only [MemCachedStore.Get, hm, hb]
  · intro hm hd
    rw [← AList.lookup_eq_none] at hm hd
    simp only [MemCachedStore.Get, hm, hd]

/-- C7, witness: the three cases on `overlayExample`, at the keys `[1]`, `[3]` and `[8]`. -/
theorem C7_get_precedence_witness :
    overlayExample.Get MemoryStore.asStore [1] = ([5], none) ∧
    MemCachedStore.Get failingStore
      { toMemoryStore := overlayExample.toMemoryStore, ps := NewMemoryStore,
        stateSum := overlayExample.stateSum } [3] = ([], some Error.ErrKeyNotFound) ∧
    overlayExample.Get MemoryStore.asStore [8] = ([9], none) :=
  ⟨(C7_get_precedence MemoryStore.asStore overlayExample [1]).1 [5] (by decide),
    (C7_get_precedence MemoryStore.asStore overlayExample [3]).2.1 (by decide) (by decide)
      failingStore NewMemoryStore,
    ((C7_get_precedence MemoryStore.asStore overlayExample [8]).2.2 (by decide)
      (by decide)).trans (by decide)⟩

/-! ## Put and Delete followed by Get -/

theorem MemoryStore.Get_put_self (m : MemoryStore) (k v : Bytes) :
    (m.put k v).Get k = (v, none) := by
  simp [MemoryStore.Get, MemoryStore.put, AList.lookup_insert]

theorem MemoryStore.Get_put_ne (m : MemoryStore) (k v k2 : Bytes) (h : k2 ≠ k) :
    (m.put k v).Get k2 = m.Get k2 := by
  simp [MemoryStore.Get, MemoryStore.put, AList.lookup_insert_ne h]

theorem MemoryStore.Get_drop_self (m : MemoryStore) (k : Bytes) :
    (m.drop k).Get k = ([], some Error.ErrKeyNotFound) := by
  simp [MemoryStore.Get, MemoryStore.drop, AList.lookup_erase]

theorem MemoryStore.Get_drop_ne (m : MemoryStore) (k k2 : Bytes) (h : k2 ≠ k) :
    (m.drop k).Get k2 = m.Get k2 := by
  simp [MemoryStore.Get, MemoryStore.drop, AList.lookup_erase_ne h]

section
variable {σ β : Type} (sha256 : Bytes → Uint256) (I : Store σ β)

theorem MemCachedStore.Get_Put_self (s : MemCachedStore σ) (k v : Bytes) :
    (s.Put sha256 I k v).1.Get I k = (v, none) := by
  simp [MemCachedStore.Get, MemCachedStore.Put, MemoryStore.Put, MemoryStore.put,
    AList.lookup_insert]

theorem MemCachedStore.Get_Put_ne (s : MemCachedStore σ) (k v k2 : Bytes) (h : k2 ≠ k) :
    (s.Put sha256 I k v).1.Get I k2 = s.Get I k2 := by
  simp [MemCachedStore.Get, MemCachedStore.Put, MemoryStore.Put, MemoryStore.put,
    AList.lookup_insert_ne h, AList.lookup_erase_ne h]

theorem MemCachedStore.Get_Delete_self (s : MemCachedStore σ) (k : Bytes)
    (hdisj : s.toMemoryStore.Disjoint) :
    (s.Delete sha256 I k).1.Get I k = ([], some Error.ErrKeyNotFound) := by
  by_cases hd : s.del.lookup k = some true
  · have hk : k ∈ s.del := by
      rw [← AList.lookup_isSome, hd]
      rfl
    have hm : s.mem.lookup k = none := by
      rw [AList.lookup_eq_none]
      intro hmem
      exact hdisj k hmem hk
    simp [MemCachedStore.Get, MemCachedStore.Delete, hd, hm]
  · simp [MemCachedStore.Get, MemCachedStore.Delete, hd, MemoryStore.Delete, MemoryStore.drop,
      AList.lookup_erase, AList.lookup_insert]

theorem MemCachedStore.Get_Delete_ne (s : MemCachedStore σ) (k k2 : Bytes) (h : k2 ≠ k) :
    (s.Delete sha256 I k).1.Get I k2 = s.Get I k2 := by
  by_cases hd : s.del.lookup k = some true
  · simp [MemCachedStore.Delete, hd]
  · simp [MemCachedStore.Get, MemCachedStore.Delete, hd, MemoryStore.Delete, MemoryStore.drop,
      AList.lookup_erase_ne h, AList.lookup_insert_ne h]

end

/-- C8.  For a `MemoryStore` `m` and for a `MemCachedStore` `s` over any lower store `I` in any
state: `Put(k, v)` returns no error and `Get(k)` then returns `v` with no error; `Delete(k)`
returns no error and `Get(k)` then fails with `ErrKeyNotFound`, whatever the lower store holds;
and `Get(k2)` for any other key `k2` is the same before and after the `Put` or `Delete`.  For
the `Delete` of a `MemCachedStore` the overlay is taken with its representation invariant, that
`mem` and `del` share no key (`MemoryStore.Disjoint`, which `disjoint_run_new` shows for every
state reached from `NewMemCachedStore`). -/
theorem C8_read_your_writes {σ β : Type} (sha256 : Bytes → Uint256) (I : Store σ β)
    (m : MemoryStore) (s : MemCachedStore σ) (k v k2 : Bytes) :
    ((m.Put k v).2 = none ∧ (m.Put k v).1.Get k = (v, none)) ∧
    ((m.Delete k).2 = none ∧ (m.Delete k).1.Get k = ([], some Error.ErrKeyNotFound)) ∧
    (k2 ≠ k → (m.Put k v).1.Get k2 = m.Get k2 ∧ (m.Delete k).1.Get k2 = m.Get k2) ∧
    ((s.Put sha256 I k v).2 = none ∧ (s.Put sha256 I k v).1.Get I k = (v, none)) ∧
    ((s.Delete sha256 I k).2 = none ∧
      (s.toMemoryStore.Disjoint →
        (s.Delete sha256 I k).1.Get I k = ([], some Error.ErrKeyNotFound))) ∧
    (k2 ≠ k → (s.Put sha256 I k v).1.Get I k2 = s.Get I k2 ∧
      (s.Delete sha256 I k).1.Get I k2 = s.Get I k2) := by
  refine ⟨⟨rfl, MemoryStore.Get_put_self m k v⟩, ⟨rfl, MemoryStore.Get_drop_self m k⟩,
    fun h => ⟨MemoryStore.Get_put_ne m k v k2 h, MemoryStore.Get_drop_ne m k k2 h⟩,
    ⟨rfl, MemCachedStore.Get_Put_self sha256 I s k v⟩,
    ⟨?_, MemCachedStore.Get_Delete_self sha256 I s k⟩,
    fun h => ⟨MemCachedStore.Get_Put_ne sha256 I s k v k2 h,
      MemCachedStore.Get_Delete_ne sha256 I s k k2 h⟩⟩
  unfold MemCachedStore.Delete
  split <;> rfl

/-- C8, witness: on `overlayExample`, whose lower store holds `([3], [4])` and `([8], [9])`,
with `k = [8]`, `v = [6]` and the other key `k2 = [1]`. -/
theorem C8_read_your_writes_witness :
    ([1] : Bytes) ≠ [8] ∧ overlayExample.toMemoryStore.Disjoint ∧
    overlayExample.ps.Get [8] = ([9], none) ∧
    ((overlayExample.Delete toyHash MemoryStore.asStore [8]).1.Get MemoryStore.asStore [8]
      = ([], some Error.ErrKeyNotFound)) ∧
    ((overlayExample.Put toyHash MemoryStore.asStore [8] [6]).1.Get MemoryStore.asStore [1]
        = overlayExample.Get MemoryStore.asStore [1] ∧
      (overlayExample.Delete toyHash MemoryStore.asStore [8]).1.Get MemoryStore.asStore [1]
        = overlayExample.Get MemoryStore.asStore [1]) ∧
    ((overlayExample.ps.Put [8] [6]).1.Get [1] = overlayExample.ps.Get [1] ∧
      (overlayExample.ps.Delete [8]).1.Get [1] = overlayExample.ps.Get [1]) :=
  ⟨by decide, by decide, by decide,
    (C8_read_your_writes toyHash MemoryStore.asStore overlayExample.ps overlayExample
      [8] [6] [1]).2.2.2.2.1.2 (by decide),
    (C8_read_your_writes toyHash MemoryStore.asStore overlayExample.ps overlayExample
      [8] [6] [1]).2.2.2.2.2 (by decide),
    (C8_read_your_writes toyHash MemoryStore.asStore overlayExample.ps overlayExample
      [8] [6] [1]).2.2.1 (by decide)⟩

/-! ## Seek -/

/-- A conditional fold over the entries of a map is the fold over the entries the condition
keeps. -/
theorem foldl_cond_eq_foldl_filter {α V : Type} (l : List (Sigma fun _ : Bytes => V))
    (q : Bytes → Bool) (f : α → Bytes → V → α) (a : α) :
    l.foldl (fun acc e => if q e.1 = true then f acc e.1 e.2 else acc) a =
      ((l.filter (fun e => q e.1)).map (fun e => (e.1, e.2))).foldl
        (fun acc c => f acc c.1 c.2) a := by
  induction l generalizing a with
  | nil => rfl
  | cons e l ih =>
    rw [List.foldl_cons, ih]
    by_cases hq : q e.1 = true
    · simp [List.filter_cons, hq]
    · simp [List.filter_cons, hq]

/-- Among the kept entries of a map, those with a given key: the entry of that key, if the
condition keeps the key. -/
theorem filter_key_of_nodupKeys {V : Type} (l : List (Sigma fun _ : Bytes => V))
    (hl : l.NodupKeys) (q : Bytes → Bool) (key : Bytes) :
    ((l.filter (fun e => q e.1)).map (fun e => (e.1, e.2))).filter (fun c => c.1 = key) =
      if q key = true then
        (match l.dlookup key with
        | some v => [(key, v)]
        | none => [])
      else [] := by
  induction l with
  | nil => simp
  | cons e l ih =>
    obtain ⟨k, v⟩ := e
    rw [List.nodupKeys_cons] at hl
    have ih2 := ih hl.2
    by_cases hk : k = key
    · subst hk
      have hnone : l.dlookup k = none := List.dlookup_eq_none.2 hl.1
      rw [hnone] at ih2
      simp only [ite_self] at ih2
      by_cases hq : q k = true
      · simp [List.filter_cons, hq, List.dlookup_cons_eq, ih2]
      · simp [List.filter_cons, hq, ih2]
    · have hne : key ≠ k := fun h => hk h.symm
      rw [List.dlookup_cons_ne l ⟨k, v⟩ hne]
      by_cases hq : q k = true
      · simp [List.filter_cons, hq, hk, ih2]
      · simp [List.filter_cons, hq, ih2]

theorem foldl_append_singleton {γ : Type} (l init : List γ) :
    l.foldl (fun acc c => acc ++ [c]) init = init ++ l := by
  induction l generalizing init with
  | nil => simp
  | cons c l ih => rw [List.foldl_cons, ih, List.append_assoc, List.singleton_append]

theorem MemCachedStore.Seek_eq_foldl_seekList {α : Type} (s : MemCachedStore MemoryStore)
    (pfx : Bytes) (f : α → Bytes → Bytes → α) (a : α) :
    s.Seek MemoryStore.asStore pfx f a =
      (s.seekList pfx).foldl (fun acc c => f acc c.1 c.2) a := by
  have hfun : (fun (acc : α) (e : Sigma fun _ : Bytes => Bytes) =>
      if HasPrefix e.1 pfx = true then
        (if (!(if (!(s.mem.lookup e.1).isSome) = true then (s.del.lookup e.1).isSome
            else (s.mem.lookup e.1).isSome)) = true then f acc e.1 e.2 else acc)
      else acc) =
      (fun acc e => if s.passes pfx e.1 = true then f acc e.1 e.2 else acc) := by
    funext acc e
    unfold MemCachedStore.passes
    cases HasPrefix e.1 pfx <;> cases (s.mem.lookup e.1).isSome <;>
      cases (s.del.lookup e.1).isSome <;> simp
  simp only [MemCachedStore.Seek, MemoryStore.asStore, MemoryStore.Seek, AList.foldl,
    MemCachedStore.seekList, List.foldl_append]
  rw [hfun, foldl_cond_eq_foldl_filter s.ps.mem.entries (fun k => s.passes pfx k),
    foldl_cond_eq_foldl_filter s.mem.entries (fun k => HasPrefix k pfx)]

theorem MemCachedStore.seekCalls_eq_seekList (s : MemCachedStore MemoryStore) (pfx : Bytes) :
    s.seekCalls pfx = s.seekList pfx := by
  unfold MemCachedStore.seekCalls
  rw [MemCachedStore.Seek_eq_foldl_seekList]
  have h := foldl_append_singleton (s.seekList pfx) []
  simpa using h

/-- C9.  Over a `MemoryStore`, `Seek(pfx, f)` runs `f` over the list of calls `seekCalls`
(so the calls `f` receives are exactly those pairs, in that order), and for every key the
calls made with that key are: the single call `(key, v)` with `v` the value `Get(key)` returns,
when `key` has the prefix and `Get(key)` succeeds; no call otherwise, in particular none for a
pending-deleted key, none for a key without the prefix, and never two for one key. -/
theorem C9_seek_visits_visible_once (s : MemCachedStore MemoryStore) (pfx key : Bytes) :
    (∀ (α : Type) (f : α → Bytes → Bytes → α) (a : α),
      s.Seek MemoryStore.asStore pfx f a
        = (s.seekCalls pfx).foldl (fun acc c => f acc c.1 c.2) a) ∧
    (s.seekCalls pfx).filter (fun c => c.1 = key) =
      if HasPrefix key pfx = true ∧ (s.Get MemoryStore.asStore key).2 = none then
        [(key, (s.Get MemoryStore.asStore key).1)]
      else [] := by
  constructor
  · intro α f a
    rw [MemCachedStore.seekCalls_eq_seekList, MemCachedStore.Seek_eq_foldl_seekList]
  · rw [MemCachedStore.seekCalls_eq_seekList]
    unfold MemCachedStore.seekList
    rw [List.filter_append, filter_key_of_nodupKeys _ s.mem.nodupKeys (fun k => HasPrefix k pfx),
      filter_key_of_nodupKeys _ s.ps.mem.nodupKeys (fun k => s.passes pfx k)]
    have hm : s.mem.entries.dlookup key = s.mem.lookup key := rfl
    have hp : s.ps.mem.entries.dlookup key = s.ps.mem.lookup key := rfl
    rw [hm, hp]
    unfold MemCachedStore.passes
    simp only [MemCachedStore.Get, MemoryStore.asStore, MemoryStore.Get]
    cases hpre : HasPrefix key pfx <;> cases hml : s.mem.lookup key <;>
      cases hdl : s.del.lookup key <;> cases hpl : s.ps.mem.lookup key <;> simp

/-! ## Double delete -/

/-- C10.  When `del[key]` is already true, `Delete(key)` returns no error and the same state,
so the pending writes, the pending deletes, `Checksum()` and `ChangeChecksum()` are unchanged;
and in every state a second `Delete(key)` right after a first one returns no error and leaves
the state of the first. -/
theorem C10_double_delete_noop {σ β : Type} (sha256 : Bytes → Uint256) (I : Store σ β)
    (s : MemCachedStore σ) (key : Bytes) :
    (s.del.lookup key = some true →
      s.Delete sha256 I key = (s, none) ∧
      (s.Delete sha256 I key).1.mem = s.mem ∧
      (s.Delete sha256 I key).1.del = s.del ∧
      (s.Delete sha256 I key).1.Checksum = s.Checksum ∧
      (s.Delete sha256 I key).1.ChangeChecksum sha256 I = s.ChangeChecksum sha256 I) ∧
    (s.Delete sha256 I key).1.Delete sha256 I key = ((s.Delete sha256 I key).1, none) := by
  constructor
  · intro h
    have h1 : s.Delete sha256 I key = (s, none) := by
      simp [MemCachedStore.Delete, h]
    rw [h1]
    exact ⟨rfl, rfl, rfl, rfl, rfl⟩
  · by_cases h : s.del.lookup key = some true
    · simp [MemCachedStore.Delete, h]
    · have h2 : (s.Delete sha256 I key).1.del.lookup key = some true := by
        simp [MemCachedStore.Delete, h, MemoryStore.Delete, MemoryStore.drop,
          AList.lookup_insert]
      generalize s.Delete sha256 I key = r at h2
      simp [MemCachedStore.Delete, h2]

/-- C10, witness: `overlayExample`, where `[3]` is pending-deleted. -/
theorem C10_double_delete_witness :
    overlayExample.del.lookup [3] = some true ∧
    overlayExample.Delete toyHash MemoryStore.asStore [3] = (overlayExample, none) ∧
    (overlayExample.Delete toyHash MemoryStore.asStore [3]).1.ChangeChecksum toyHash
      MemoryStore.asStore = overlayExample.ChangeChecksum toyHash MemoryStore.asStore :=
  ⟨by decide,
    ((C10_double_delete_noop toyHash MemoryStore.asStore overlayExample [3]).1 (by decide)).1,
    ((C10_double_delete_noop toyHash MemoryStore.asStore overlayExample [3]).1
      (by decide)).2.2.2.2⟩

/-! ## The running checksum on call sequences that re-add no deleted key -/

theorem xorFold_init (sha256 : Bytes → Uint256) (l : List (Sigma fun _ : Bytes => Bytes))
    (init : Uint256) :
    l.foldl (fun hash e => hash.Xor (HashKV sha256 e.1 e.2)) init =
      init.Xor (xorPairs sha256 l) := by
  unfold xorPairs
  induction l generalizing init with
  | nil => simp [Uint256.xor_zero]
  | cons e l ih =>
    rw [List.foldl_cons, List.foldl_cons, ih, ih (Uint256.zero.Xor _), Uint256.zero_xor,
      Uint256.xor_assoc]

theorem xorPairs_nil (sha256 : Bytes → Uint256) : xorPairs sha256 [] = Uint256.zero := rfl

theorem xorPairs_cons (sha256 : Bytes → Uint256) (e : Sigma fun _ : Bytes => Bytes)
    (l : List (Sigma fun _ : Bytes => Bytes)) :
    xorPairs sha256 (e :: l) = (HashKV sha256 e.1 e.2).Xor (xorPairs sha256 l) := by
  have h := xorFold_init sha256 l (Uint256.zero.Xor (HashKV sha256 e.1 e.2))
  have h2 : xorPairs sha256 (e :: l) =
      l.foldl (fun hash e => hash.Xor (HashKV sha256 e.1 e.2))
        (Uint256.zero.Xor (HashKV sha256 e.1 e.2)) := by
    simp only [xorPairs, List.foldl_cons]
  rw [h2, h, Uint256.zero_xor]

theorem xorPairs_perm (sha256 : Bytes → Uint256) {l₁ l₂ : List (Sigma fun _ : Bytes => Bytes)}
    (p : l₁.Perm l₂) : xorPairs sha256 l₁ = xorPairs sha256 l₂ := by
  unfold xorPairs
  apply List.Perm.foldl_eq' p
  intro x _ y _ z
  rw [Uint256.xor_assoc, Uint256.xor_assoc, Uint256.xor_comm (HashKV sha256 x.1 x.2)]

theorem xorPairs_kerase (sha256 : Bytes → Uint256) (l : List (Sigma fun _ : Bytes => Bytes))
    (hl : l.NodupKeys) (k : Bytes) :
    xorPairs sha256 (l.kerase k) = (xorPairs sha256 l).Xor (contrib sha256 k (l.dlookup k)) := by
  induction l with
  | nil => simp [xorPairs_nil, contrib, Uint256.xor_zero]
  | cons e l ih =>
    obtain ⟨a, b⟩ := e
    rw [List.nodupKeys_cons] at hl
    by_cases hk : k = a
    · subst hk
      have hke : List.kerase k (⟨k, b⟩ :: l) = l := List.kerase_cons_eq rfl
      rw [hke, List.dlookup_cons_eq, xorPairs_cons]
      simp only [contrib]
      rw [Uint256.xor_comm (HashKV sha256 k b), Uint256.xor_xor_cancel]
    · rw [List.kerase_cons_ne hk, List.dlookup_cons_ne l ⟨a, b⟩ hk, xorPairs_cons, xorPairs_cons,
        ih hl.2, Uint256.xor_assoc]

/-- Two lists of pairs with unique keys and the same value at every key have the same XOR. -/
theorem xorPairs_of_dlookup_eq (sha256 : Bytes → Uint256)
    {l₁ l₂ : List (Sigma fun _ : Bytes => Bytes)} (h₁ : l₁.NodupKeys) (h₂ : l₂.NodupKeys)
    (h : ∀ x, l₁.dlookup x = l₂.dlookup x) : xorPairs sha256 l₁ = xorPairs sha256 l₂ := by
  apply xorPairs_perm
  apply List.lookup_ext h₁ h₂
  intro x y
  rw [h x]

/-- The XOR over a list of pairs after the value at one key `k` is changed to `o`: the old
contribution of `k` is xored out and the new one xored in. -/
theorem xorPairs_of_dlookup_update (sha256 : Bytes → Uint256)
    {l₁ l₂ : List (Sigma fun _ : Bytes => Bytes)} (h₁ : l₁.NodupKeys) (h₂ : l₂.NodupKeys)
    (k : Bytes) (o : Option Bytes)
    (h : ∀ x, l₂.dlookup x = if x = k then o else l₁.dlookup x) :
    xorPairs sha256 l₂ =
      ((xorPairs sha256 l₁).Xor (contrib sha256 k (l₁.dlookup k))).Xor (contrib sha256 k o) := by
  have hk : l₂.dlookup k = o := by
    rw [h k, if_pos rfl]
  have he : xorPairs sha256 (l₂.kerase k) = xorPairs sha256 (l₁.kerase k) := by
    apply xorPairs_of_dlookup_eq sha256 (h₂.kerase k) (h₁.kerase k)
    intro x
    by_cases hx : x = k
    · subst hx
      rw [List.dlookup_kerase x h₂, List.dlookup_kerase x h₁]
    · rw [List.dlookup_kerase_ne hx, List.dlookup_kerase_ne hx, h x, if_neg hx]
  rw [xorPairs_kerase sha256 l₂ h₂ k, xorPairs_kerase sha256 l₁ h₁ k, hk] at he
  rw [← he, Uint256.xor_xor_cancel]

theorem dlookup_filter_key {V : Type} (l : List (Sigma fun _ : Bytes => V)) (q : Bytes → Bool)
    (k : Bytes) :
    (l.filter (fun e => q e.1)).dlookup k = if q k = true then l.dlookup k else none := by
  induction l with
  | nil => simp
  | cons e l ih =>
    obtain ⟨a, b⟩ := e
    by_cases hq : q a = true
    · rw [List.filter_cons_of_pos (by simpa using hq)]
      by_cases hk : k = a
      · subst hk
        simp [List.dlookup_cons_eq, hq]
      · rw [List.dlookup_cons_ne _ _ hk, List.dlookup_cons_ne _ _ hk, ih]
    · rw [List.filter_cons_of_neg (by simpa using hq), ih]
      by_cases hk : k = a
      · subst hk
        simp [hq]
      · rw [List.dlookup_cons_ne _ _ hk]

theorem MemCachedStore.dlookup_logicalPairs (s : MemCachedStore MemoryStore) (k : Bytes) :
    s.logicalPairs.dlookup k = s.view k := by
  unfold MemCachedStore.logicalPairs MemCachedStore.view
  rw [List.dlookup_append,
    dlookup_filter_key s.ps.mem.entries
      (fun x => !((s.mem.lookup x).isSome || (s.del.lookup x).isSome))]
  have hm : s.mem.entries.dlookup k = s.mem.lookup k := rfl
  have hp : s.ps.mem.entries.dlookup k = s.ps.mem.lookup k := rfl
  rw [hm, hp]
  cases s.mem.lookup k <;> cases s.del.lookup k <;> simp

theorem MemCachedStore.logicalPairs_nodupKeys (s : MemCachedStore MemoryStore) :
    s.logicalPairs.NodupKeys := by
  unfold MemCachedStore.logicalPairs
  have h2 : (s.ps.mem.entries.filter
      (fun e => !((s.mem.lookup e.1).isSome || (s.del.lookup e.1).isSome))).NodupKeys :=
    List.NodupKeys.sublist (List.filter_sublist _) s.ps.mem.nodupKeys
  unfold List.NodupKeys at h2 ⊢
  rw [List.keys, List.map_append, List.nodup_append]
  refine ⟨s.mem.nodupKeys, h2, ?_⟩
  intro x hx1 hx2
  rw [List.mem_map] at hx2
  obtain ⟨e, he, hex⟩ := hx2
  rw [List.mem_filter] at he
  have hx3 : x ∈ s.mem := hx1
  rw [← AList.lookup_isSome, ← hex] at hx3
  simp [hx3] at he

/-- The checksum of the logical dataset after the value of one key changes. -/
theorem MemCachedStore.logicalChecksum_of_view_update (sha256 : Bytes → Uint256)
    (s t : MemCachedStore MemoryStore) (k : Bytes) (o : Option Bytes)
    (h : ∀ x, t.view x = if x = k then o else s.view x) :
    t.logicalChecksum sha256 =
      ((s.logicalChecksum sha256).Xor (contrib sha256 k (s.view k))).Xor (contrib sha256 k o) := by
  unfold MemCachedStore.logicalChecksum
  rw [← MemCachedStore.dlookup_logicalPairs s k]
  apply xorPairs_of_dlookup_update sha256 s.logicalPairs_nodupKeys t.logicalPairs_nodupKeys
  intro x
  rw [MemCachedStore.dlookup_logicalPairs, MemCachedStore.dlookup_logicalPairs, h x]

/-- The checksum of the logical dataset depends only on the value of every key. -/
theorem MemCachedStore.logicalChecksum_of_view_eq (sha256 : Bytes → Uint256)
    (s t : MemCachedStore MemoryStore) (h : ∀ x, t.view x = s.view x) :
    t.logicalChecksum sha256 = s.logicalChecksum sha256 := by
  unfold MemCachedStore.logicalChecksum
  apply xorPairs_of_dlookup_eq sha256 t.logicalPairs_nodupKeys s.logicalPairs_nodupKeys
  intro x
  rw [MemCachedStore.dlookup_logicalPairs, MemCachedStore.dlookup_logicalPairs, h x]

theorem MemCachedStore.view_Put (sha256 : Bytes → Uint256) (s : MemCachedStore MemoryStore)
    (k v x : Bytes) :
    (s.Put sha256 MemoryStore.asStore k v).1.view x = if x = k then some v else s.view x := by
  by_cases hx : x = k
  · subst hx
    simp [MemCachedStore.view, MemCachedStore.Put, MemoryStore.Put, MemoryStore.put,
      AList.lookup_insert]
  · simp [MemCachedStore.view, MemCachedStore.Put, MemoryStore.Put, MemoryStore.put,
      AList.lookup_insert_ne hx, AList.lookup_erase_ne hx, hx]

theorem MemCachedStore.view_Delete (sha256 : Bytes → Uint256) (s : MemCachedStore MemoryStore)
    (k x : Bytes) (hd : s.del.lookup k ≠ some true) :
    (s.Delete sha256 MemoryStore.asStore k).1.view x = if x = k then none else s.view x := by
  by_cases hx : x = k
  · subst hx
    simp [MemCachedStore.view, MemCachedStore.Delete, hd, MemoryStore.Delete, MemoryStore.drop,
      AList.lookup_erase, AList.lookup_insert]
  · simp [MemCachedStore.view, MemCachedStore.Delete, hd, MemoryStore.Delete, MemoryStore.drop,
      AList.lookup_insert_ne hx, AList.lookup_erase_ne hx, hx]

theorem MemCachedStore.view_Persist (s : MemCachedStore MemoryStore)
    (hdisj : s.toMemoryStore.Disjoint) (x : Bytes) :
    (s.Persist MemoryStore.asStore).1.view x = s.view x := by
  have hres := MemCachedStore.Persist_memory s
  rw [← MemCachedStore.Persist_ps_lookup s hdisj x]
  simp [MemCachedStore.view, hres.2.1, hres.2.2.1]

theorem MemoryStore.delTrue_new : NewMemoryStore.DelTrue := by
  intro key b h
  simp [NewMemoryStore] at h

theorem MemoryStore.delTrue_put (m : MemoryStore) (h : m.DelTrue) (k v : Bytes) :
    (m.put k v).DelTrue := by
  intro key b hb
  by_cases hk : key = k
  · subst hk
    simp [MemoryStore.put, AList.lookup_erase] at hb
  · rw [MemoryStore.put, AList.lookup_erase_ne hk] at hb
    exact h key b hb

theorem MemoryStore.delTrue_drop (m : MemoryStore) (h : m.DelTrue) (k : Bytes) :
    (m.drop k).DelTrue := by
  intro key b hb
  by_cases hk : key = k
  · subst hk
    simp [MemoryStore.drop, AList.lookup_insert] at hb
    exact hb
  · rw [MemoryStore.drop, AList.lookup_insert_ne hk] at hb
    exact h key b hb

theorem MemCachedStore.stateSum_Put (sha256 : Bytes → Uint256) (s : MemCachedStore MemoryStore)
    (k v : Bytes) :
    (s.Put sha256 MemoryStore.asStore k v).1.stateSum =
      ((s.stateSum.Xor (contrib sha256 k (s.prior k))).Xor (HashKV sha256 k v)) := by
  have hget : MemoryStore.asStore.Get = MemoryStore.Get := rfl
  simp only [MemCachedStore.Put, MemCachedStore.prior, hget, MemoryStore.Get]
  cases s.mem.lookup k <;> cases s.ps.mem.lookup k <;> simp [contrib, Uint256.xor_zero]

theorem MemCachedStore.stateSum_Delete (sha256 : Bytes → Uint256)
    (s : MemCachedStore MemoryStore) (k : Bytes) (hd : s.del.lookup k ≠ some true) :
    (s.Delete sha256 MemoryStore.asStore k).1.stateSum =
      s.stateSum.Xor (contrib sha256 k (s.prior k)) := by
  have hget : MemoryStore.asStore.Get = MemoryStore.Get := rfl
  simp only [MemCachedStore.Delete, hd, if_false, MemCachedStore.prior, hget, MemoryStore.Get]
  cases s.mem.lookup k <;> cases s.ps.mem.lookup k <;> simp [contrib, Uint256.xor_zero]

/-- Unless `Put(k, _)` would re-add a deleted key the backing store still holds, the prior
value `Put` and `Delete` find for `k` is the value of `k` in the logical dataset. -/
theorem MemCachedStore.prior_eq_view (s : MemCachedStore MemoryStore) (k : Bytes)
    (h : ¬ s.readds k) : s.prior k = s.view k := by
  unfold MemCachedStore.prior MemCachedStore.view
  cases hm : s.mem.lookup k with
  | some v => rfl
  | none =>
    cases hd : s.del.lookup k with
    | none => simp
    | some b =>
      have hkm : k ∉ s.mem := AList.lookup_eq_none.1 hm
      have hkd : k ∈ s.del := by
        rw [← AList.lookup_isSome, hd]
        rfl
      have hkp : k ∉ s.ps.mem := fun hp => h ⟨hkm, hkd, hp⟩
      simp [AList.lookup_eq_none.2 hkp]

theorem MemCachedStore.checksumInv_Put (sha256 : Bytes → Uint256)
    (s : MemCachedStore MemoryStore) (k v : Bytes) (h : s.ChecksumInv sha256)
    (hsafe : ¬ s.readds k) : (s.Put sha256 MemoryStore.asStore k v).1.ChecksumInv sha256 := by
  refine ⟨MemoryStore.disjoint_put s.toMemoryStore h.1 k v,
    MemoryStore.delTrue_put s.toMemoryStore h.2.1 k v, ?_⟩
  rw [MemCachedStore.stateSum_Put, MemCachedStore.prior_eq_view s k hsafe, h.2.2]
  exact (MemCachedStore.logicalChecksum_of_view_update sha256 s _ k (some v)
    (MemCachedStore.view_Put sha256 s k v)).symm

theorem MemCachedStore.checksumInv_Delete (sha256 : Bytes → Uint256)
    (s : MemCachedStore MemoryStore) (k : Bytes) (h : s.ChecksumInv sha256) :
    (s.Delete sha256 MemoryStore.asStore k).1.ChecksumInv sha256 := by
  by_cases hd : s.del.lookup k = some true
  · have h1 : s.Delete sha256 MemoryStore.asStore k = (s, none) := by
      simp [MemCachedStore.Delete, hd]
    rw [h1]
    exact h
  · have hnone : s.del.lookup k = none := by
      cases hb : s.del.lookup k with
      | none => rfl
      | some b =>
        rw [h.2.1 k b hb] at hb
        exact absurd hb hd
    have hsafe : ¬ s.readds k := by
      intro hr
      exact (AList.lookup_eq_none.1 hnone) hr.2.1
    have hdel : (s.Delete sha256 MemoryStore.asStore k).1.toMemoryStore = s.toMemoryStore.drop k := by
      simp [MemCachedStore.Delete, hd, MemoryStore.Delete]
    refine ⟨?_, ?_, ?_⟩
    · rw [hdel]
      exact MemoryStore.disjoint_drop s.toMemoryStore h.1 k
    · rw [hdel]
      exact MemoryStore.delTrue_drop s.toMemoryStore h.2.1 k
    · rw [MemCachedStore.stateSum_Delete sha256 s k hd, MemCachedStore.prior_eq_view s k hsafe,
        h.2.2]
      have h3 := MemCachedStore.logicalChecksum_of_view_update sha256 s
        (s.Delete sha256 MemoryStore.asStore k).1 k none
        (fun x => MemCachedStore.view_Delete sha256 s k x hd)
      rw [h3]
      simp [contrib, Uint256.xor_zero]

theorem MemCachedStore.checksumInv_Persist (sha256 : Bytes → Uint256)
    (s : MemCachedStore MemoryStore) (h : s.ChecksumInv sha256) :
    (s.Persist MemoryStore.asStore).1.ChecksumInv sha256 := by
  have hres := MemCachedStore.Persist_memory s
  refine ⟨MemCachedStore.disjoint_Persist MemoryStore.asStore s h.1, ?_, ?_⟩
  · intro key b hb
    rw [hres.2.2.1, AList.lookup_empty] at hb
    exact absurd hb (by simp)
  · rw [hres.2.2.2, h.2.2]
    exact (MemCachedStore.logicalChecksum_of_view_eq sha256 s _
      (MemCachedStore.view_Persist s h.1)).symm

/-- The checksum invariant holds over an empty `MemoryStore` at creation. -/
theorem checksumInv_new (sha256 : Bytes → Uint256) :
    (NewMemCachedStore NewMemoryStore).ChecksumInv sha256 :=
  ⟨MemoryStore.disjoint_new, MemoryStore.delTrue_new, rfl⟩

/-- The checksum invariant is kept by every sequence of `Put`, `Delete` and `Persist` in which
no `Put` re-adds a deleted key that the backing store still holds. -/
theorem checksumInv_run (sha256 : Bytes → Uint256) (ops : List Op)
    (s : MemCachedStore MemoryStore) (h : s.ChecksumInv sha256) (hsafe : noReadd sha256 ops s) :
    (run sha256 ops s).ChecksumInv sha256 := by
  induction ops generalizing s with
  | nil => exact h
  | cons op ops ih =>
    cases op with
    | Put key value =>
      simp only [noReadd] at hsafe
      exact ih _ (MemCachedStore.checksumInv_Put sha256 s key value h hsafe.1) hsafe.2
    | Delete key =>
      simp only [noReadd] at hsafe
      exact ih _ (MemCachedStore.checksumInv_Delete sha256 s key h) hsafe
    | Persist =>
      simp only [noReadd] at hsafe
      exact ih _ (MemCachedStore.checksumInv_Persist sha256 s h) hsafe

/-- Over an empty `MemoryStore`, after every sequence of `Put`, `Delete` and `Persist` in which
no `Put` re-adds a deleted key that the backing store still holds, `Checksum()` is the checksum
of the logical dataset. -/
theorem checksum_eq_logicalChecksum_of_noReadd (sha256 : Bytes → Uint256) (ops : List Op)
    (hsafe : noReadd sha256 ops (NewMemCachedStore NewMemoryStore)) :
    (run sha256 ops (NewMemCachedStore NewMemoryStore)).Checksum =
      (run sha256 ops (NewMemCachedStore NewMemoryStore)).logicalChecksum sha256 :=
  (checksumInv_run sha256 ops _ (checksumInv_new sha256) hsafe).2.2

/-- When the overlay is empty the checksum of the logical dataset is the backing store's
`Checksum()`. -/
theorem MemCachedStore.logicalChecksum_of_empty (sha256 : Bytes → Uint256)
    (s : MemCachedStore MemoryStore) (hm : s.mem = ∅) (hd : s.del = ∅) :
    s.logicalChecksum sha256 = s.ps.Checksum sha256 := by
  unfold MemCachedStore.logicalChecksum MemCachedStore.logicalPairs
  rw [hm, hd]
  simp [AList.lookup_empty, MemoryStore.Checksum, AList.foldl, xorPairs]

/-- From a state with the checksum invariant, after `Persist` the overlay's `Checksum()` is the
backing store's `Checksum()`. -/
theorem MemCachedStore.checksum_Persist_of_checksumInv (sha256 : Bytes → Uint256)
    (s : MemCachedStore MemoryStore) (h : s.ChecksumInv sha256) :
    (s.Persist MemoryStore.asStore).1.Checksum =
      (s.Persist MemoryStore.asStore).1.ps.Checksum sha256 := by
  have hres := MemCachedStore.Persist_memory s
  have hinv := MemCachedStore.checksumInv_Persist sha256 s h
  rw [← MemCachedStore.logicalChecksum_of_empty sha256 _ hres.2.1 hres.2.2.1]
  exact hinv.2.2

/-! ## Xor -/

/-- C16.  `Uint256.Xor` xors byte by byte, and for all `a`, `b`, `c`: `zero xor a = a`,
`a xor b = b xor a`, `(a xor b) xor c = a xor (b xor c)`, `(a xor b) xor b = a` and
`a xor a = zero`. -/
theorem C16_xor_algebra (a b c : Uint256) :
    (∀ i, (a.Xor b).bytes i = a.bytes i ^^^ b.bytes i) ∧
    Uint256.zero.Xor a = a ∧
    a.Xor b = b.Xor a ∧
    (a.Xor b).Xor c = a.Xor (b.Xor c) ∧
    (a.Xor b).Xor b = a ∧
    a.Xor a = Uint256.zero := by
  refine ⟨fun i => Uint256.Xor_bytes a b i, ?_, ?_, ?_, ?_, ?_⟩
  · ext i
    rw [Uint256.Xor_bytes]
    simp [Uint256.zero]
  · ext i
    rw [Uint256.Xor_bytes, Uint256.Xor_bytes, Nat.xor_comm]
  · ext i
    rw [Uint256.Xor_bytes, Uint256.Xor_bytes, Uint256.Xor_bytes, Uint256.Xor_bytes,
      Nat.xor_assoc]
  · ext i
    rw [Uint256.Xor_bytes, Uint256.Xor_bytes, Nat.xor_assoc, Nat.xor_self, Nat.xor_zero]
  · ext i
    rw [Uint256.Xor_bytes, Nat.xor_self]
    rfl

/-! ## The change checksum -/

theorem xorKeys_init (sha256 : Bytes → Uint256) (l : List Bytes) (init : Uint256) :
    l.foldl (fun hash k => hash.Xor (sha256 k)) init = init.Xor (xorKeys sha256 l) := by
  unfold xorKeys
  induction l generalizing init with
  | nil => simp [Uint256.xor_zero]
  | cons k l ih =>
    rw [List.foldl_cons, List.foldl_cons, ih, ih (Uint256.zero.Xor _), Uint256.zero_xor,
      Uint256.xor_assoc]

theorem xorKeys_cons (sha256 : Bytes → Uint256) (k : Bytes) (l : List Bytes) :
    xorKeys sha256 (k :: l) = (sha256 k).Xor (xorKeys sha256 l) := by
  have h := xorKeys_init sha256 l (Uint256.zero.Xor (sha256 k))
  have h2 : xorKeys sha256 (k :: l) =
      l.foldl (fun hash k => hash.Xor (sha256 k)) (Uint256.zero.Xor (sha256 k)) := by
    simp only [xorKeys, List.foldl_cons]
  rw [h2, h, Uint256.zero_xor]

/-- The loop of `ChangeChecksum` over `del`, from any start value. -/
theorem foldl_tombstones {σ β : Type} (sha256 : Bytes → Uint256) (I : Store σ β) (p : σ)
    (l : List (Sigma fun _ : Bytes => Bool)) (init : Uint256) :
    l.foldl
      (fun acc e =>
        match I.Get p e.1 with
        | (_, none) => acc.Xor (sha256 e.1)
        | (_, some _) => acc) init =
      init.Xor (xorKeys sha256 (l.keys.filter (fun k => (I.Get p k).2.isNone))) := by
  induction l generalizing init with
  | nil => simp [xorKeys, Uint256.xor_zero]
  | cons e l ih =>
    obtain ⟨k, b⟩ := e
    rw [List.foldl_cons, ih, List.keys_cons]
    rcases hg : I.Get p k with ⟨val, _ | err⟩
    · simp [hg, List.filter_cons, xorKeys_cons, Uint256.xor_assoc]
    · simp [hg, List.filter_cons]

section
variable {σ β : Type} (sha256 : Bytes → Uint256) (I : Store σ β)

/-- The value of `ChangeChecksum()` as a formula. -/
theorem MemCachedStore.ChangeChecksum_eq (s : MemCachedStore σ) :
    s.ChangeChecksum sha256 I =
      (xorPairs sha256 s.mem.entries).Xor (xorKeys sha256 (s.liveDeletes I)) := by
  simp only [MemCachedStore.ChangeChecksum, AList.foldl]
  rw [foldl_tombstones sha256 I s.ps s.del.entries]
  rfl

end

/-- C11.  `ChangeChecksum()` is the XOR of `HashKV(k, v)` over the pending writes, xored with
the XOR of `sha256(key)` over the list `liveDeletes`, which holds every pending-deleted key
for which the `Get` of the lower store succeeds, each once, and no other key. -/
theorem C11_changeChecksum_formula {σ β : Type} (sha256 : Bytes → Uint256) (I : Store σ β)
    (s : MemCachedStore σ) :
    s.ChangeChecksum sha256 I =
      (xorPairs sha256 s.mem.entries).Xor (xorKeys sha256 (s.liveDeletes I)) ∧
    (∀ key, key ∈ s.liveDeletes I ↔ key ∈ s.del ∧ (I.Get s.ps key).2 = none) ∧
    (s.liveDeletes I).Nodup := by
  refine ⟨MemCachedStore.ChangeChecksum_eq sha256 I s, ?_, ?_⟩
  · intro key
    unfold MemCachedStore.liveDeletes
    rw [List.mem_filter, Option.isNone_iff_eq_none]
    exact Iff.rfl
  · unfold MemCachedStore.liveDeletes
    exact List.Nodup.filter _ s.del.keys_nodup

/-! ## Persist of an empty overlay -/

/-- C17.  When `mem` and `del` are both empty, `Persist` returns the count 0 and no error and
leaves the overlay and the lower store as they were; `PutBatch` is not called: the result is
the same whatever function `pb` stands as the `PutBatch` of the lower store. -/
theorem C17_persist_empty_noop {σ β : Type} (I : Store σ β) (s : MemCachedStore σ)
    (hm : s.mem = ∅) (hd : s.del = ∅) :
    s.Persist I = (s, 0, none) ∧
    (s.Persist I).1.ps = s.ps ∧
    ∀ pb : σ → β → σ × Option Error,
      MemCachedStore.Persist { I with PutBatch := pb } s = (s, 0, none) := by
  have hgen : ∀ J : Store σ β, s.Persist J = (s, 0, none) := by
    intro J
    have hk : (s.persistBatch J).2.1 = 0 := by
      rw [MemCachedStore.persistBatch_keys, hm]
      rfl
    have hdk : (s.persistBatch J).2.2 = 0 := by
      rw [MemCachedStore.persistBatch_dkeys, hd]
      rfl
    obtain ⟨⟨mem, del⟩, ps, stateSum⟩ := s
    simp only at hm hd
    subst hm hd
    simp only [MemCachedStore.Persist, hk, hdk]
    rfl
  refine ⟨hgen I, ?_, fun pb => hgen _⟩
  rw [hgen I]

/-- C17, witness: a new overlay over the lower store `failingStore`, whose `PutBatch` would
return an error if it were called. -/
theorem C17_persist_empty_witness :
    (NewMemCachedStore NewMemoryStore).mem = ∅ ∧
    (NewMemCachedStore NewMemoryStore).del = ∅ ∧
    (NewMemCachedStore NewMemoryStore).Persist failingStore
      = (NewMemCachedStore NewMemoryStore, 0, none) :=
  ⟨rfl, rfl, (C17_persist_empty_noop failingStore (NewMemCachedStore NewMemoryStore) rfl rfl).1⟩

/-! ## Put and Delete leave the lower store alone -/

/-- C18.  `Put(k, v)` and `Delete(k)` on a `MemCachedStore` return a state with the same lower
store, so the lower store's `Get` returns for every key what it returned before. -/
theorem C18_put_delete_keep_lower {σ β : Type} (sha256 : Bytes → Uint256) (I : Store σ β)
    (s : MemCachedStore σ) (k v : Bytes) :
    (s.Put sha256 I k v).1.ps = s.ps ∧
    (s.Delete sha256 I k).1.ps = s.ps ∧
    (∀ key, I.Get (s.Put sha256 I k v).1.ps key = I.Get s.ps key) ∧
    (∀ key, I.Get (s.Delete sha256 I k).1.ps key = I.Get s.ps key) := by
  have hp : (s.Put sha256 I k v).1.ps = s.ps := rfl
  have hd : (s.Delete sha256 I k).1.ps = s.ps := by
    unfold MemCachedStore.Delete
    split <;> rfl
  refine ⟨hp, hd, fun key => ?_, fun key => ?_⟩
  · rw [hp]
  · rw [hd]

/-! ## Put followed by Delete of a new key -/

theorem GoMap.erase_insert_of_not_mem {V : Type} (m : GoMap V) (k : Bytes) (v : V)
    (h : k ∉ m) : (m.insert k v).erase k = m := by
  apply AList.ext
  have h1 : ((m.insert k v).erase k).entries = (m.insert k v).entries.kerase k := rfl
  have h2 : List.kerase k ((⟨k, v⟩ : Sigma fun _ : Bytes => V) :: List.kerase k m.entries)
      = List.kerase k m.entries := List.kerase_cons_eq rfl
  rw [h1, AList.insert_entries, h2, List.kerase_of_not_mem_keys h]

theorem filter_cons_of_false (l : List Bytes) (q : Bytes → Bool) (k : Bytes)
    (h : q k = false) : (k :: l).filter q = l.filter q := by
  simp [List.filter_cons, h]

theorem filter_erase_of_neg {γ : Type} [DecidableEq γ] (l : List γ) (q : γ → Bool) (k : γ)
    (h : q k = false) : (l.erase k).filter q = l.filter q := by
  induction l with
  | nil => rfl
  | cons a l ih =>
    by_cases hak : a = k
    · subst hak
      simp [h]
    · rw [List.erase_cons_tail (by simpa using hak)]
      by_cases hq : q a = true
      · rw [List.filter_cons_of_pos hq, List.filter_cons_of_pos hq, ih]
      · rw [List.filter_cons_of_neg hq, List.filter_cons_of_neg hq, ih]

/-- C20.  When `k` is neither pending-written nor held by the lower store (its `Get(k)` returns
an error), `Put(k, v)` followed by `Delete(k)` leaves `Checksum()` and `ChangeChecksum()` as
they were before the `Put`; the pending writes are also as before. -/
theorem C20_put_then_delete_noop {σ β : Type} (sha256 : Bytes → Uint256) (I : Store σ β)
    (s : MemCachedStore σ) (k v : Bytes) (hm : k ∉ s.mem) (hp : (I.Get s.ps k).2 ≠ none) :
    ((s.Put sha256 I k v).1.Delete sha256 I k).1.Checksum = s.Checksum ∧
    ((s.Put sha256 I k v).1.Delete sha256 I k).1.ChangeChecksum sha256 I
      = s.ChangeChecksum sha256 I ∧
    ((s.Put sha256 I k v).1.Delete sha256 I k).1.mem = s.mem := by
  have hml : s.mem.lookup k = none := AList.lookup_eq_none.2 hm
  obtain ⟨val, err, hg⟩ : ∃ val err, I.Get s.ps k = (val, some err) := by
    rcases hget : I.Get s.ps k with ⟨val, _ | err⟩
    · rw [hget] at hp
      exact absurd rfl hp
    · exact ⟨val, err, rfl⟩
  have hput : (s.Put sha256 I k v).1 =
      { mem := s.mem.insert k v, del := s.del.erase k, ps := s.ps,
        stateSum := s.stateSum.Xor (HashKV sha256 k v) } := by
    simp [MemCachedStore.Put, hml, hg, MemoryStore.Put, MemoryStore.put]
  have hdel : ((s.Put sha256 I k v).1.Delete sha256 I k).1 =
      { mem := (s.mem.insert k v).erase k, del := (s.del.erase k).insert k true, ps := s.ps,
        stateSum := (s.stateSum.Xor (HashKV sha256 k v)).Xor (HashKV sha256 k v) } := by
    rw [hput]
    simp [MemCachedStore.Delete, AList.lookup_erase, AList.lookup_insert, MemoryStore.Delete,
      MemoryStore.drop]
  rw [hdel]
  have hmem : (s.mem.insert k v).erase k = s.mem := GoMap.erase_insert_of_not_mem s.mem k v hm
  refine ⟨?_, ?_, hmem⟩
  · simp only [MemCachedStore.Checksum, Uint256.xor_xor_cancel]
  · rw [MemCachedStore.ChangeChecksum_eq, MemCachedStore.ChangeChecksum_eq]
    simp only [hmem]
    have hq : (fun key => (I.Get s.ps key).2.isNone) k = false := by
      simp [hg]
    have hlive : MemCachedStore.liveDeletes I
        ({ mem := s.mem, del := (s.del.erase k).insert k true, ps := s.ps,
           stateSum := (s.stateSum.Xor (HashKV sha256 k v)).Xor (HashKV sha256 k v) } :
          MemCachedStore σ) = s.liveDeletes I := by
      simp only [MemCachedStore.liveDeletes, AList.keys_insert, AList.keys_erase]
      rw [filter_cons_of_false _ (fun key => (I.Get s.ps key).2.isNone) k hq,
        filter_erase_of_neg _ (fun key => (I.Get s.ps key).2.isNone) k hq,
        filter_erase_of_neg _ (fun key => (I.Get s.ps key).2.isNone) k hq]
    rw [hlive]

/-- C20, witness: on `overlayExample`, with the new key `[6]`, which is neither pending-written
nor held by the lower store. -/
theorem C20_put_then_delete_witness :
    [6] ∉ overlayExample.mem ∧
    (MemoryStore.asStore.Get overlayExample.ps [6]).2 ≠ none ∧
    (((overlayExample.Put toyHash MemoryStore.asStore [6] [7]).1.Delete toyHash
        MemoryStore.asStore [6]).1.Checksum = overlayExample.Checksum ∧
      ((overlayExample.Put toyHash MemoryStore.asStore [6] [7]).1.Delete toyHash
        MemoryStore.asStore [6]).1.ChangeChecksum toyHash MemoryStore.asStore
        = overlayExample.ChangeChecksum toyHash MemoryStore.asStore ∧
      ((overlayExample.Put toyHash MemoryStore.asStore [6] [7]).1.Delete toyHash
        MemoryStore.asStore [6]).1.mem = overlayExample.mem) :=
  ⟨by decide, by decide,
    C20_put_then_delete_noop toyHash MemoryStore.asStore overlayExample [6] [7] (by decide)
      (by decide)⟩

/-! ## Checksums over an empty backing store, without Persist -/

theorem run_ps_of_no_persist (sha256 : Bytes → Uint256) (ops : List Op)
    (s : MemCachedStore MemoryStore) (h : ∀ op ∈ ops, op ≠ Op.Persist) :
    (run sha256 ops s).ps = s.ps := by
  induction ops generalizing s with
  | nil => rfl
  | cons op ops ih =>
    have hrest : ∀ o ∈ ops, o ≠ Op.Persist := fun o ho => h o (List.mem_cons_of_mem _ ho)
    have hstep : (step sha256 s op).ps = s.ps := by
      cases op with
      | Put key value => rfl
      | Delete key =>
        simp only [step, MemCachedStore.Delete]
        split <;> rfl
      | Persist => exact absurd rfl (h Op.Persist (List.mem_cons_self _ _))
    have h2 : run sha256 (op :: ops) s = run sha256 ops (step sha256 s op) := rfl
    rw [h2, ih _ hrest, hstep]

theorem noReadd_of_lower_empty (sha256 : Bytes → Uint256) (ops : List Op)
    (s : MemCachedStore MemoryStore) (h : ∀ op ∈ ops, op ≠ Op.Persist)
    (hps : s.ps.mem = ∅) : noReadd sha256 ops s := by
  induction ops generalizing s with
  | nil => trivial
  | cons op ops ih =>
    have hrest : ∀ o ∈ ops, o ≠ Op.Persist := fun o ho => h o (List.mem_cons_of_mem _ ho)
    cases op with
    | Put key value =>
      simp only [noReadd]
      refine ⟨?_, ih _ hrest hps⟩
      intro hr
      have h3 := hr.2.2
      rw [hps] at h3
      exact AList.not_mem_empty key h3
    | Delete key =>
      simp only [noReadd]
      apply ih _ hrest
      have hstep : (step sha256 s (Op.Delete key)).ps = s.ps := by
        simp only [step, MemCachedStore.Delete]
        split <;> rfl
      rw [hstep, hps]
    | Persist => exact absurd rfl (h Op.Persist (List.mem_cons_self _ _))

/-- Over a lower `MemoryStore` that holds no pair, the checksum of the logical dataset is the
XOR of `HashKV` over the pending writes, and so is `ChangeChecksum()`. -/
theorem MemCachedStore.checksums_of_lower_empty (sha256 : Bytes → Uint256)
    (s : MemCachedStore MemoryStore) (hps : s.ps.mem = ∅) :
    s.logicalChecksum sha256 = xorPairs sha256 s.mem.entries ∧
    s.ChangeChecksum sha256 MemoryStore.asStore = xorPairs sha256 s.mem.entries := by
  constructor
  · unfold MemCachedStore.logicalChecksum MemCachedStore.logicalPairs
    rw [hps]
    simp
  · rw [MemCachedStore.ChangeChecksum_eq]
    have hlive : s.liveDeletes MemoryStore.asStore = [] := by
      unfold MemCachedStore.liveDeletes
      rw [List.filter_eq_nil_iff]
      intro key _
      have hget : MemoryStore.asStore.Get s.ps key = ([], some Error.ErrKeyNotFound) := by
        show MemoryStore.Get s.ps key = _
        simp [MemoryStore.Get, hps]
      rw [hget]
      simp
    rw [hlive]
    exact Uint256.xor_zero _

/-- After `Put` and `Delete` calls on a new overlay over an empty `MemoryStore`, the running
checksum is the XOR of `HashKV` over the pending writes, and so is `ChangeChecksum()`. -/
theorem checksums_of_no_persist (sha256 : Bytes → Uint256) (ops : List Op)
    (h : ∀ op ∈ ops, op ≠ Op.Persist) :
    (run sha256 ops (NewMemCachedStore NewMemoryStore)).stateSum =
      xorPairs sha256 (run sha256 ops (NewMemCachedStore NewMemoryStore)).mem.entries ∧
    (run sha256 ops (NewMemCachedStore NewMemoryStore)).ChangeChecksum sha256
      MemoryStore.asStore =
      xorPairs sha256 (run sha256 ops (NewMemCachedStore NewMemoryStore)).mem.entries := by
  have hps : (run sha256 ops (NewMemCachedStore NewMemoryStore)).ps.mem = ∅ := by
    rw [run_ps_of_no_persist sha256 ops _ h]
    rfl
  have hinv := checksumInv_run sha256 ops _ (checksumInv_new sha256)
    (noReadd_of_lower_empty sha256 ops _ h rfl)
  have hc := MemCachedStore.checksums_of_lower_empty sha256 _ hps
  exact ⟨hinv.2.2.trans hc.1, hc.2⟩

/-- C13.  For a `MemCachedStore` created over an empty `MemoryStore`, after any sequence of
`Put` and `Delete` calls with no `Persist`, `ChangeChecksum()` equals `Checksum()`, and both
are the XOR of `HashKV` over the pending writes. -/
theorem C13_change_eq_checksum (sha256 : Bytes → Uint256) (ops : List Op)
    (h : ∀ op ∈ ops, op ≠ Op.Persist) :
    (run sha256 ops (NewMemCachedStore NewMemoryStore)).ChangeChecksum sha256
      MemoryStore.asStore = (run sha256 ops (NewMemCachedStore NewMemoryStore)).Checksum ∧
    (run sha256 ops (NewMemCachedStore NewMemoryStore)).Checksum =
      xorPairs sha256 (run sha256 ops (NewMemCachedStore NewMemoryStore)).mem.entries := by
  have hc := checksums_of_no_persist sha256 ops h
  refine ⟨?_, hc.1⟩
  rw [hc.2]
  exact hc.1.symm

/-- C13, witness: the calls `putDeleteOps`. -/
theorem C13_change_eq_checksum_witness :
    (∀ op ∈ putDeleteOps, op ≠ Op.Persist) ∧
    ((run toyHash putDeleteOps (NewMemCachedStore NewMemoryStore)).ChangeChecksum toyHash
      MemoryStore.asStore = (run toyHash putDeleteOps (NewMemCachedStore NewMemoryStore)).Checksum ∧
    (run toyHash putDeleteOps (NewMemCachedStore NewMemoryStore)).Checksum =
      xorPairs toyHash
        (run toyHash putDeleteOps (NewMemCachedStore NewMemoryStore)).mem.entries) :=
  ⟨by decide, C13_change_eq_checksum toyHash putDeleteOps (by decide)⟩

theorem MemoryStore.Checksum_eq_xorPairs (sha256 : Bytes → Uint256) (m : MemoryStore) :
    m.Checksum sha256 = xorPairs sha256 m.mem.entries := rfl

theorem MemoryStore.mem_entries_iff_Get (m : MemoryStore) (key val : Bytes) :
    (⟨key, val⟩ : Sigma fun _ : Bytes => Bytes) ∈ m.mem.entries ↔ m.Get key = (val, none) := by
  rw [← AList.mem_lookup_iff]
  unfold MemoryStore.Get
  cases m.mem.lookup key <;> simp

theorem MemCachedStore.mem_entries_iff_Get_cached (s : MemCachedStore MemoryStore)
    (hps : s.ps.mem = ∅) (key val : Bytes) :
    (⟨key, val⟩ : Sigma fun _ : Bytes => Bytes) ∈ s.mem.entries ↔
      s.Get MemoryStore.asStore key = (val, none) := by
  rw [← AList.mem_lookup_iff]
  have hget : MemoryStore.asStore.Get s.ps key = ([], some Error.ErrKeyNotFound) := by
    show MemoryStore.Get s.ps key = _
    simp [MemoryStore.Get, hps]
  unfold MemCachedStore.Get
  rw [hget]
  cases s.mem.lookup key <;> cases s.del.lookup key <;> simp

theorem GoMap.entries_eq_nil_of_lookup_none (m : GoMap Bytes)
    (h : ∀ key, m.lookup key = none) : m.entries = [] := by
  cases he : m.entries with
  | nil => rfl
  | cons e l =>
    have hmem : e.1 ∈ m := by
      rw [AList.mem_keys, AList.keys, he]
      simp [List.keys]
    rw [← AList.lookup_isSome, h e.1] at hmem
    exact absurd hmem (by simp)

/-- C15.  The `Checksum()` of a `MemoryStore`, in any state, and of a `MemCachedStore` after
`Put` and `Delete` calls with no `Persist` on a new overlay over an empty `MemoryStore`, is the
XOR of `HashKV` over the entries of `mem`, which have distinct keys and are exactly the pairs
`Get` returns.  It is all-zero for the empty stores, `HashKV(k, v)` after a single `Put(k, v)`,
and all-zero whenever `Get` fails for every key. -/
theorem C15_checksum_is_xor_of_pairs (sha256 : Bytes → Uint256) (m : MemoryStore)
    (ops : List Op) (k v : Bytes) (h : ∀ op ∈ ops, op ≠ Op.Persist) :
    (m.Checksum sha256 = xorPairs sha256 m.mem.entries ∧ m.mem.entries.NodupKeys ∧
      ∀ key val, (⟨key, val⟩ : Sigma fun _ : Bytes => Bytes) ∈ m.mem.entries ↔
        m.Get key = (val, none)) ∧
    ((run sha256 ops (NewMemCachedStore NewMemoryStore)).Checksum =
        xorPairs sha256 (run sha256 ops (NewMemCachedStore NewMemoryStore)).mem.entries ∧
      (run sha256 ops (NewMemCachedStore NewMemoryStore)).mem.entries.NodupKeys ∧
      ∀ key val, (⟨key, val⟩ : Sigma fun _ : Bytes => Bytes) ∈
          (run sha256 ops (NewMemCachedStore NewMemoryStore)).mem.entries ↔
        (run sha256 ops (NewMemCachedStore NewMemoryStore)).Get MemoryStore.asStore key
          = (val, none)) ∧
    (NewMemoryStore.Checksum sha256 = Uint256.zero ∧
      (NewMemCachedStore NewMemoryStore).Checksum = Uint256.zero) ∧
    ((NewMemoryStore.Put k v).1.Checksum sha256 = HashKV sha256 k v ∧
      ((NewMemCachedStore NewMemoryStore).Put sha256 MemoryStore.asStore k v).1.Checksum
        = HashKV sha256 k v) ∧
    ((∀ key, (m.Get key).2 ≠ none) → m.Checksum sha256 = Uint256.zero) ∧
    ((∀ key, ((run sha256 ops (NewMemCachedStore NewMemoryStore)).Get MemoryStore.asStore
        key).2 ≠ none) →
      (run sha256 ops (NewMemCachedStore NewMemoryStore)).Checksum = Uint256.zero) := by
  have hps : (run sha256 ops (NewMemCachedStore NewMemoryStore)).ps.mem = ∅ := by
    rw [run_ps_of_no_persist sha256 ops _ h]
    rfl
  have hc := (checksums_of_no_persist sha256 ops h).1
  refine ⟨⟨rfl, m.mem.nodupKeys, MemoryStore.mem_entries_iff_Get m⟩,
    ⟨hc, AList.nodupKeys _, MemCachedStore.mem_entries_iff_Get_cached _ hps⟩, ⟨rfl, rfl⟩, ⟨?_, ?_⟩,
    ?_, ?_⟩
  · have h1 : (NewMemoryStore.Put k v).1.Checksum sha256
        = Uint256.zero.Xor (HashKV sha256 k v) := rfl
    rw [h1, Uint256.zero_xor]
  · have h1 : ((NewMemCachedStore NewMemoryStore).Put sha256 MemoryStore.asStore k v).1.Checksum
        = Uint256.zero.Xor (HashKV sha256 k v) := rfl
    rw [h1, Uint256.zero_xor]
  · intro hall
    have hnil : m.mem.entries = [] := by
      apply GoMap.entries_eq_nil_of_lookup_none
      intro key
      have hk := hall key
      unfold MemoryStore.Get at hk
      cases hl : m.mem.lookup key with
      | none => rfl
      | some val =>
        rw [hl] at hk
        exact absurd rfl hk
    rw [MemoryStore.Checksum_eq_xorPairs, hnil]
    rfl
  · intro hall
    have hnil : (run sha256 ops (NewMemCachedStore NewMemoryStore)).mem.entries = [] := by
      apply GoMap.entries_eq_nil_of_lookup_none
      intro key
      have hk := hall key
      unfold MemCachedStore.Get at hk
      cases hl : (run sha256 ops (NewMemCachedStore NewMemoryStore)).mem.lookup key with
      | none => rfl
      | some val =>
        rw [hl] at hk
        exact absurd rfl hk
    have hc2 : (run sha256 ops (NewMemCachedStore NewMemoryStore)).Checksum =
        xorPairs sha256 (run sha256 ops (NewMemCachedStore NewMemoryStore)).mem.entries := hc
    rw [hc2, hnil]
    rfl

/-- C15, witness: the calls `Put([1], [2])`, `Delete([1])` on a `MemoryStore` and on a
`MemCachedStore`, after which `Get` fails for every key and the checksums are all-zero. -/
theorem C15_checksum_witness :
    (∀ op ∈ putThenDeleteOps, op ≠ Op.Persist) ∧
    (∀ key, (((NewMemoryStore.Put [1] [2]).1.Delete [1]).1.Get key).2 ≠ none) ∧
    (∀ key, ((run toyHash putThenDeleteOps (NewMemCachedStore NewMemoryStore)).Get
      MemoryStore.asStore key).2 ≠ none) ∧
    ((NewMemoryStore.Put [1] [2]).1.Delete [1]).1.Checksum toyHash = Uint256.zero ∧
    (run toyHash putThenDeleteOps (NewMemCachedStore NewMemoryStore)).Checksum
      = Uint256.zero :=
  have hm : ∀ key, (((NewMemoryStore.Put [1] [2]).1.Delete [1]).1.Get key).2 ≠ none := by
    intro key
    by_cases hk : key = [1]
    · subst hk
      decide
    · have hrun : ((NewMemoryStore.Put [1] [2]).1.Delete [1]).1 =
          (NewMemoryStore.put [1] [2]).drop [1] := rfl
      rw [hrun, MemoryStore.Get_drop_ne _ [1] key hk, MemoryStore.Get_put_ne _ [1] [2] key hk]
      intro hnone
      cases hnone
  have hs : ∀ key, ((run toyHash putThenDeleteOps (NewMemCachedStore NewMemoryStore)).Get
      MemoryStore.asStore key).2 ≠ none := by
    intro key
    have hrun : run toyHash putThenDeleteOps (NewMemCachedStore NewMemoryStore) =
        (MemCachedStore.Delete toyHash MemoryStore.asStore
          ((NewMemCachedStore NewMemoryStore).Put toyHash MemoryStore.asStore [1] [2]).1
          [1]).1 := rfl
    by_cases hk : key = [1]
    · subst hk
      decide
    · rw [hrun, MemCachedStore.Get_Delete_ne toyHash MemoryStore.asStore _ [1] key hk,
        MemCachedStore.Get_Put_ne toyHash MemoryStore.asStore _ [1] [2] key hk]
      intro hnone
      cases hnone
  ⟨by decide, hm, hs,
    (C15_checksum_is_xor_of_pairs toyHash ((NewMemoryStore.Put [1] [2]).1.Delete [1]).1
      putThenDeleteOps [1] [2] (by decide)).2.2.2.2.1 hm,
    (C15_checksum_is_xor_of_pairs toyHash ((NewMemoryStore.Put [1] [2]).1.Delete [1]).1
      putThenDeleteOps [1] [2] (by decide)).2.2.2.2.2 hs⟩

/-! ## PutBatch -/

theorem foldl_apply_mem_lookup (ops : List BatchOp) (b : MemoryBatch) (key : Bytes) :
    (ops.foldl MemoryBatch.apply b).mem.lookup key =
      match lastOp ops key with
      | some (BatchOp.Put _ value) => some value
      | some (BatchOp.Delete _) => none
      | none => b.mem.lookup key := by
  induction ops generalizing b with
  | nil => rfl
  | cons op ops ih =>
    rw [List.foldl_cons, ih]
    simp only [lastOp]
    cases hl : lastOp ops key with
    | some o => cases o <;> rfl
    | none =>
      cases op with
      | Put k v =>
        by_cases hk : k = key
        · subst hk
          simp [BatchOp.key, MemoryBatch.apply, MemoryBatch.Put, MemoryStore.Put,
            MemoryStore.put, AList.lookup_insert]
        · have hk2 : key ≠ k := fun h => hk h.symm
          simp [BatchOp.key, hk, MemoryBatch.apply, MemoryBatch.Put, MemoryStore.Put,
            MemoryStore.put, AList.lookup_insert_ne hk2]
      | Delete k =>
        by_cases hk : k = key
        · subst hk
          simp [BatchOp.key, MemoryBatch.apply, MemoryBatch.Delete, MemoryStore.Delete,
            MemoryStore.drop, AList.lookup_erase]
        · have hk2 : key ≠ k := fun h => hk h.symm
          simp [BatchOp.key, hk, MemoryBatch.apply, MemoryBatch.Delete, MemoryStore.Delete,
            MemoryStore.drop, AList.lookup_erase_ne hk2]

theorem foldl_apply_del_lookup (ops : List BatchOp) (b : MemoryBatch) (key : Bytes) :
    (ops.foldl MemoryBatch.apply b).del.lookup key =
      match lastOp ops key with
      | some (BatchOp.Put _ _) => none
      | some (BatchOp.Delete _) => some true
      | none => b.del.lookup key := by
  induction ops generalizing b with
  | nil => rfl
  | cons op ops ih =>
    rw [List.foldl_cons, ih]
    simp only [lastOp]
    cases hl : lastOp ops key with
    | some o => cases o <;> rfl
    | none =>
      cases op with
      | Put k v =>
        by_cases hk : k = key
        · subst hk
          simp [BatchOp.key, MemoryBatch.apply, MemoryBatch.Put, MemoryStore.Put,
            MemoryStore.put, AList.lookup_erase]
        · have hk2 : key ≠ k := fun h => hk h.symm
          simp [BatchOp.key, hk, MemoryBatch.apply, MemoryBatch.Put, MemoryStore.Put,
            MemoryStore.put, AList.lookup_erase_ne hk2]
      | Delete k =>
        by_cases hk : k = key
        · subst hk
          simp [BatchOp.key, MemoryBatch.apply, MemoryBatch.Delete, MemoryStore.Delete,
            MemoryStore.drop, AList.lookup_insert]
        · have hk2 : key ≠ k := fun h => hk h.symm
          simp [BatchOp.key, hk, MemoryBatch.apply, MemoryBatch.Delete, MemoryStore.Delete,
            MemoryStore.drop, AList.lookup_insert_ne hk2]

/-- What a `MemoryStore` holds at `key` after `PutBatch(b)`: the value `b.mem` has for `key`,
else nothing when `key` is in `b.del`, else what it held before. -/
theorem MemoryStore.PutBatch_lookup (s : MemoryStore) (b : MemoryBatch) (key : Bytes) :
    (s.PutBatch b).1.mem.lookup key =
      match b.mem.lookup key with
      | some v => some v
      | none => if (b.del.lookup key).isSome = true then none else s.mem.lookup key := by
  simp only [MemoryStore.PutBatch, AList.foldl]
  rw [foldl_put_mem_lookup _ b.mem.nodupKeys, foldl_drop_mem_lookup]
  have hm : b.mem.entries.dlookup key = b.mem.lookup key := rfl
  have hd : key ∈ b.del.entries.keys ↔ (b.del.lookup key).isSome = true :=
    List.dlookup_isSome.symm
  rw [hm]
  by_cases hk : key ∈ b.del.entries.keys
  · rw [if_pos hk, if_pos (hd.1 hk)]
  · rw [if_neg hk, if_neg (fun h => hk (hd.2 h))]

/-- C14.  For a batch obtained from `Batch()` by any sequence of `Put` and `Delete` calls,
`PutBatch` returns no error, and afterwards `Get(key)` returns `v` when the last call of the
sequence naming `key` was `Put(key, v)`, fails with `ErrKeyNotFound` when it was `Delete(key)`,
and returns what it returned before when no call names `key`. -/
theorem C14_putBatch_last_wins (s : MemoryStore) (ops : List BatchOp) (key : Bytes) :
    (s.PutBatch (buildBatch ops)).2 = none ∧
    (s.PutBatch (buildBatch ops)).1.Get key =
      match lastOp ops key with
      | some (BatchOp.Put _ value) => (value, none)
      | some (BatchOp.Delete _) => ([], some Error.ErrKeyNotFound)
      | none => s.Get key := by
  refine ⟨rfl, ?_⟩
  have hm := foldl_apply_mem_lookup ops newMemoryBatch key
  have hd := foldl_apply_del_lookup ops newMemoryBatch key
  have hlook := MemoryStore.PutBatch_lookup s (buildBatch ops) key
  unfold buildBatch at hlook
  unfold buildBatch
  unfold MemoryStore.Get
  rw [hlook, hm, hd]
  cases hl : lastOp ops key with
  | none => simp [newMemoryBatch, NewMemoryStore]
  | some o => cases o <;> rfl

/-! ## Disjointness of `mem` and `del` in every reachable state -/

theorem foldl_drop_disjoint (l : List (Sigma fun _ : Bytes => Bool)) (m : MemoryStore)
    (h : m.Disjoint) : (l.foldl (fun acc e => acc.drop e.1) m).Disjoint := by
  induction l generalizing m with
  | nil => exact h
  | cons e l ih =>
    rw [List.foldl_cons]
    exact ih _ (MemoryStore.disjoint_drop m h e.1)

theorem foldl_put_disjoint (l : List (Sigma fun _ : Bytes => Bytes)) (m : MemoryStore)
    (h : m.Disjoint) : (l.foldl (fun acc e => acc.put e.1 e.2) m).Disjoint := by
  induction l generalizing m with
  | nil => exact h
  | cons e l ih =>
    rw [List.foldl_cons]
    exact ih _ (MemoryStore.disjoint_put m h e.1 e.2)

theorem MemoryStore.disjoint_PutBatch (m : MemoryStore) (h : m.Disjoint) (b : MemoryBatch) :
    (m.PutBatch b).1.Disjoint := by
  simp only [MemoryStore.PutBatch, AList.foldl]
  exact foldl_put_disjoint _ _ (foldl_drop_disjoint _ _ h)

theorem MemoryStore.disjoint_stepMem (m : MemoryStore) (h : m.Disjoint) (op : MemOp) :
    (m.step op).Disjoint := by
  cases op with
  | Put key value => exact MemoryStore.disjoint_put m h key value
  | Delete key => exact MemoryStore.disjoint_drop m h key
  | PutBatch b => exact MemoryStore.disjoint_PutBatch m h b

theorem MemoryStore.disjoint_runMem (ops : List MemOp) (m : MemoryStore) (h : m.Disjoint) :
    (MemoryStore.run ops m).Disjoint := by
  induction ops generalizing m with
  | nil => exact h
  | cons op ops ih => exact ih _ (MemoryStore.disjoint_stepMem m h op)

theorem MemCachedStore.disjoint_stepCached {σ β : Type} (sha256 : Bytes → Uint256) (I : Store σ β)
    (s : MemCachedStore σ) (h : s.toMemoryStore.Disjoint) (op : CachedOp) :
    (s.step sha256 I op).toMemoryStore.Disjoint := by
  cases op with
  | Put key value => exact MemCachedStore.disjoint_Put sha256 I s h key value
  | Delete key => exact MemCachedStore.disjoint_Delete sha256 I s h key
  | PutBatch b => exact MemoryStore.disjoint_PutBatch s.toMemoryStore h b
  | Persist => exact MemCachedStore.disjoint_Persist I s h

theorem MemCachedStore.disjoint_runCached {σ β : Type} (sha256 : Bytes → Uint256) (I : Store σ β)
    (ops : List CachedOp) (s : MemCachedStore σ) (h : s.toMemoryStore.Disjoint) :
    (MemCachedStore.run sha256 I ops s).toMemoryStore.Disjoint := by
  induction ops generalizing s with
  | nil => exact h
  | cons op ops ih => exact ih _ (MemCachedStore.disjoint_stepCached sha256 I s h op)

/-- C19.  After any sequence of `Put`, `Delete` and `PutBatch` calls on a new `MemoryStore`,
and after any sequence of `Put`, `Delete`, `PutBatch` and `Persist` calls on a new
`MemCachedStore` over any lower store, no key is both in `mem` and in `del`. -/
theorem C19_mem_del_disjoint {σ β : Type} (sha256 : Bytes → Uint256) (I : Store σ β)
    (lower : σ) (mops : List MemOp) (cops : List CachedOp) (key : Bytes) :
    ¬ (key ∈ (MemoryStore.run mops NewMemoryStore).mem ∧
        key ∈ (MemoryStore.run mops NewMemoryStore).del) ∧
    ¬ (key ∈ (MemCachedStore.run sha256 I cops (NewMemCachedStore lower)).mem ∧
        key ∈ (MemCachedStore.run sha256 I cops (NewMemCachedStore lower)).del) := by
  have h1 := MemoryStore.disjoint_runMem mops NewMemoryStore MemoryStore.disjoint_new
  have h2 := MemCachedStore.disjoint_runCached sha256 I cops (NewMemCachedStore lower)
    MemoryStore.disjoint_new
  rw [MemoryStore.disjoint_iff] at h1 h2
  exact ⟨fun h => h1 key h.1 h.2, fun h => h2 key h.1 h.2⟩

/-! ## The change checksum and the checksum of the backing store -/

theorem xorPairs_append (sha256 : Bytes → Uint256)
    (l₁ l₂ : List (Sigma fun _ : Bytes => Bytes)) :
    xorPairs sha256 (l₁ ++ l₂) = (xorPairs sha256 l₁).Xor (xorPairs sha256 l₂) := by
  have h : xorPairs sha256 (l₁ ++ l₂) =
      l₂.foldl (fun hash e => hash.Xor (HashKV sha256 e.1 e.2)) (xorPairs sha256 l₁) := by
    simp only [xorPairs, List.foldl_append]
  rw [h, xorFold_init]

/-- Over a `MemoryStore`, when `mem` and `del` share no key, the `Checksum()` of the backing
store after `Persist` is the checksum of the logical dataset from before. -/
theorem MemCachedStore.Persist_ps_checksum (sha256 : Bytes → Uint256)
    (s : MemCachedStore MemoryStore) (hdisj : s.toMemoryStore.Disjoint) :
    (s.Persist MemoryStore.asStore).1.ps.Checksum sha256 = s.logicalChecksum sha256 := by
  rw [MemoryStore.Checksum_eq_xorPairs]
  unfold MemCachedStore.logicalChecksum
  apply xorPairs_of_dlookup_eq sha256 (AList.nodupKeys _) s.logicalPairs_nodupKeys
  intro x
  rw [MemCachedStore.dlookup_logicalPairs, ← MemCachedStore.Persist_ps_lookup s hdisj x]
  rfl

/-- C12, counterexample.  After `Put(k, v)`, `Persist()`, `Put(k, w)` the backing store holds
`(k, v)` and the overlay the pending write `(k, w)`; after `Put(k, v)`, `Persist()`,
`Delete(k)` the overlay holds the pending delete `k` instead.  In both states `Persist`
succeeds, and the backing store's `Checksum()` afterwards is not its `Checksum()` from before
xored with the `ChangeChecksum()` from before. -/
theorem C12_counterexample :
    (((run toyHash overwriteOps (NewMemCachedStore NewMemoryStore)).Persist
        MemoryStore.asStore).2.2 = none ∧
      ((run toyHash overwriteOps (NewMemCachedStore NewMemoryStore)).Persist
        MemoryStore.asStore).1.ps.Checksum toyHash ≠
      ((run toyHash overwriteOps (NewMemCachedStore NewMemoryStore)).ps.Checksum toyHash).Xor
        ((run toyHash overwriteOps (NewMemCachedStore NewMemoryStore)).ChangeChecksum toyHash
          MemoryStore.asStore)) ∧
    (((run toyHash deleteOps (NewMemCachedStore NewMemoryStore)).Persist
        MemoryStore.asStore).2.2 = none ∧
      ((run toyHash deleteOps (NewMemCachedStore NewMemoryStore)).Persist
        MemoryStore.asStore).1.ps.Checksum toyHash ≠
      ((run toyHash deleteOps (NewMemCachedStore NewMemoryStore)).ps.Checksum toyHash).Xor
        ((run toyHash deleteOps (NewMemCachedStore NewMemoryStore)).ChangeChecksum toyHash
          MemoryStore.asStore)) := by
  decide

/-- C12, amended.  For every `MemCachedStore` over a `MemoryStore` whose `mem` and `del` share
no key (the representation invariant, which `disjoint_run_new` shows for every state reached
from `NewMemCachedStore`), `Persist` succeeds and the backing store's `Checksum()` afterwards
is the XOR of `HashKV` over the logical dataset from before; and in those of these states in
which no key the backing store holds is pending-written or pending-deleted, that is its
`Checksum()` from before xored with the `ChangeChecksum()` from before. -/
theorem C12_persist_checksum (sha256 : Bytes → Uint256) (s : MemCachedStore MemoryStore)
    (hdisj : s.toMemoryStore.Disjoint) :
    (s.Persist MemoryStore.asStore).2.2 = none ∧
    (s.Persist MemoryStore.asStore).1.ps.Checksum sha256 = s.logicalChecksum sha256 ∧
    ((∀ key ∈ s.ps.mem.keys, key ∉ s.mem.keys ∧ key ∉ s.del.keys) →
      (s.Persist MemoryStore.asStore).1.ps.Checksum sha256 =
        (s.ps.Checksum sha256).Xor (s.ChangeChecksum sha256 MemoryStore.asStore)) := by
  have hlog := MemCachedStore.Persist_ps_checksum sha256 s hdisj
  refine ⟨(MemCachedStore.Persist_memory s).1, hlog, ?_⟩
  intro hfresh
  rw [hlog, MemCachedStore.ChangeChecksum_eq, MemoryStore.Checksum_eq_xorPairs]
  have hfilter : s.ps.mem.entries.filter
      (fun e => !((s.mem.lookup e.1).isSome || (s.del.lookup e.1).isSome)) = s.ps.mem.entries := by
    rw [List.filter_eq_self]
    intro e he
    have hk : e.1 ∈ s.ps.mem.keys := List.mem_keys_of_mem he
    have h2 := hfresh e.1 hk
    have hm : s.mem.lookup e.1 = none := AList.lookup_eq_none.2 h2.1
    have hd : s.del.lookup e.1 = none := AList.lookup_eq_none.2 h2.2
    simp [hm, hd]
  have hlive : s.liveDeletes MemoryStore.asStore = [] := by
    unfold MemCachedStore.liveDeletes
    rw [List.filter_eq_nil_iff]
    intro key hkey
    have hnot : key ∉ s.ps.mem.keys := fun hk => (hfresh key hk).2 hkey
    have hl : s.ps.mem.lookup key = none := AList.lookup_eq_none.2 hnot
    have hget : MemoryStore.asStore.Get s.ps key = ([], some Error.ErrKeyNotFound) := by
      show MemoryStore.Get s.ps key = _
      simp [MemoryStore.Get, hl]
    rw [hget]
    simp
  unfold MemCachedStore.logicalChecksum MemCachedStore.logicalPairs
  rw [hfilter, hlive, xorPairs_append]
  have hz : xorKeys sha256 [] = Uint256.zero := rfl
  rw [hz, Uint256.xor_zero, Uint256.xor_comm]

/-- C12, witness: the first part on `overlayExample`, where the pending write `[1]` and the
pending delete `[3]` both name keys the backing store holds, so that `Persist` has to replace
one value and remove another; the second part on `freshKeysOverlay`, where no pending key is
held by the backing store. -/
theorem C12_persist_checksum_witness :
    overlayExample.toMemoryStore.Disjoint ∧
    ((overlayExample.Persist MemoryStore.asStore).2.2 = none ∧
      (overlayExample.Persist MemoryStore.asStore).1.ps.Checksum toyHash
        = overlayExample.logicalChecksum toyHash) ∧
    freshKeysOverlay.toMemoryStore.Disjoint ∧
    (∀ key ∈ freshKeysOverlay.ps.mem.keys,
      key ∉ freshKeysOverlay.mem.keys ∧ key ∉ freshKeysOverlay.del.keys) ∧
    (freshKeysOverlay.Persist MemoryStore.asStore).1.ps.Checksum toyHash =
      (freshKeysOverlay.ps.Checksum toyHash).Xor
        (freshKeysOverlay.ChangeChecksum toyHash MemoryStore.asStore) :=
  ⟨by decide,
    ⟨(C12_persist_checksum toyHash overlayExample (by decide)).1,
      (C12_persist_checksum toyHash overlayExample (by decide)).2.1⟩,
    by decide, by decide,
    (C12_persist_checksum toyHash freshKeysOverlay (by decide)).2.2 (by decide)⟩

/-! ## HashKV and the concatenation of key and value -/

theorem MemoryStore.Checksum_single (sha256 : Bytes → Uint256) (k v : Bytes) :
    (NewMemoryStore.Put k v).1.Checksum sha256 = HashKV sha256 k v := by
  have h : (NewMemoryStore.Put k v).1.Checksum sha256
      = Uint256.zero.Xor (HashKV sha256 k v) := rfl
  rw [h, Uint256.zero_xor]

/-- C21.  `HashKV` hashes the key bytes followed by the value bytes, with nothing between
them: when `k1 ++ v1 = k2 ++ v2`, `HashKV(k1, v1) = HashKV(k2, v2)`, and the `MemoryStore`
holding the single pair `(k1, v1)` has the `Checksum()` of the one holding `(k2, v2)`.  So the
stores `{"ab": "c"}` and `{"a": "bc"}`, whose `Get("ab")` differ, have equal `Checksum()`, for
every hash function. -/
theorem C21_hashKV_concat (sha256 : Bytes → Uint256) (k1 v1 k2 v2 : Bytes)
    (h : k1 ++ v1 = k2 ++ v2) :
    HashKV sha256 k1 v1 = HashKV sha256 k2 v2 ∧
    (NewMemoryStore.Put k1 v1).1.Checksum sha256
      = (NewMemoryStore.Put k2 v2).1.Checksum sha256 ∧
    storeAbC.Checksum sha256 = storeABc.Checksum sha256 ∧
    storeAbC.Get [97, 98] ≠ storeABc.Get [97, 98] := by
  have hk : HashKV sha256 k1 v1 = HashKV sha256 k2 v2 := by
    unfold HashKV
    rw [h]
  have hex : HashKV sha256 [97, 98] [99] = HashKV sha256 [97] [98, 99] := rfl
  refine ⟨hk, ?_, ?_, by decide⟩
  · rw [MemoryStore.Checksum_single, MemoryStore.Checksum_single, hk]
  · unfold storeAbC storeABc
    rw [MemoryStore.Checksum_single, MemoryStore.Checksum_single, hex]

/-- C21, witness: the pairs `("ab", "c")` and `("a", "bc")`, with the hash `toyHash`. -/
theorem C21_hashKV_concat_witness :
    ([97, 98] : Bytes) ++ [99] = [97] ++ [98, 99] ∧
    HashKV toyHash [97, 98] [99] = HashKV toyHash [97] [98, 99] ∧
    (NewMemoryStore.Put [97, 98] [99]).1.Checksum toyHash
      = (NewMemoryStore.Put [97] [98, 99]).1.Checksum toyHash ∧
    (NewMemoryStore.Put [97, 98] [99]).1.Get [97, 98]
      ≠ (NewMemoryStore.Put [97] [98, 99]).1.Get [97, 98] :=
  ⟨by decide,
    (C21_hashKV_concat toyHash [97, 98] [99] [97] [98, 99] (by decide)).1,
    (C21_hashKV_concat toyHash [97, 98] [99] [97] [98, 99] (by decide)).2.1,
    by decide⟩

end Xorkv
